import Mathlib

/-!
Verification of the action-log reconstruction and analytics pipeline of the
multi-agent-marketplace repository, centred on
`magentic_marketplace/unified_server.py` (`_load_messages`,
`_create_message_threads`) and `magentic_marketplace/api/utils.py`
(`validate_schema_name`).

Timestamps (`created_at`, ISO strings compared lexicographically in the
source) are modelled as `Nat`; row/action ids as `Nat`; agent ids and
message types as `String`.  Python dicts keyed by strings are modelled as
association lists in insertion order, matching dict iteration/update
semantics; Python sets of thread keys are modelled as duplicate-free lists.
-/

/-- An agent entry as looked up by `_create_message_threads`: the function
only ever reads the `"id"` field of the customer/business dicts, so the
remaining payload fields are irrelevant to the control flow and omitted. -/
structure Agent where
  id : String
deriving DecidableEq, Repr

/-- The `content` value stored in a message dict by `_load_messages`:
either the bare text (`content_dict["content"]` when the content type is
`"text"`), the full content dict otherwise, or the synthesised search
content dict. -/
inductive Content where
  | text (s : String)
  | dict (ty : String) (body : String)
  | search (query : String) (business_ids : List String) (total_results : Nat)
deriving DecidableEq, Repr

/-- A message dict as produced by `_load_messages` and consumed by
`_create_message_threads`.  `business_ids = some l` models the presence of
the internal `"business_ids"` key (search messages); `none` models its
absence. -/
structure Message where
  id : Nat
  from_agent : String
  to_agent : Option String
  type : String
  content : Content
  created_at : Nat
  business_ids : Option (List String)
deriving DecidableEq, Repr

/-- `message.copy()` followed by `thread_message.pop("business_ids", None)`:
the stored copy is the message with the internal fan-out field removed. -/
def stripBusinessIds (m : Message) : Message :=
  { m with business_ids := none }

/-- A conversation thread dict: participants, ordered message list,
`lastMessageTime` and the default `utility` of `0`. -/
structure Thread where
  customer : Agent
  business : Agent
  messages : List Message
  lastMessageTime : Nat
  utility : Int
deriving DecidableEq, Repr

/-- The state built by `_create_message_threads`: the `threads` dict (an
insertion-ordered association list) and the `threads_with_payments` set. -/
structure ThreadsState where
  threads : List (String × Thread)
  withPayments : List String
deriving DecidableEq, Repr

/-- `{c["id"]: c for c in customers}` followed by `.get(i)`: the last list
entry with a given id wins, absent ids give `none`. -/
def findAgent (l : List Agent) (i : String) : Option Agent :=
  l.foldl (fun acc a => if a.id == i then some a else acc) none

/-- The thread key `f"{customer_id}-{business_id}"`. -/
def threadKey (c b : String) : String :=
  c ++ "-" ++ b

/-- `thread_key in threads` on the association-list model. -/
def containsKey (ts : List (String × Thread)) (k : String) : Bool :=
  ts.any (fun p => p.1 == k)

/-- Dict lookup `threads[k]` (keys are unique by construction). -/
def lookupThread (ts : List (String × Thread)) (k : String) : Option Thread :=
  (ts.find? (fun p => p.1 == k)).map (fun p => p.2)

/-- In-place update of the binding at key `k`. -/
def updateAt (ts : List (String × Thread)) (k : String) (f : Thread → Thread) :
    List (String × Thread) :=
  ts.map (fun p => if p.1 == k then (p.1, f p.2) else p)

/-- The `if thread_key not in threads: threads[thread_key] = {...}` step
followed by `threads[thread_key]["messages"].append(x)` and
`threads[thread_key]["lastMessageTime"] = time`. -/
def appendToThread (ts : List (String × Thread)) (k : String) (c b : Agent)
    (x : Message) (time : Nat) : List (String × Thread) :=
  let ts1 := if containsKey ts k then ts else ts ++ [(k, ⟨c, b, [], time, 0⟩)]
  updateAt ts1 k (fun t => { t with messages := t.messages ++ [x], lastMessageTime := time })

/-- `threads_with_payments.add(k)` (membership-preserving set add). -/
def addFlag (s : List String) (k : String) : List String :=
  if s.contains k then s else s ++ [k]

/-- One iteration of the fan-out loop `for business_id in
message["business_ids"]`: skip unresolvable ids, otherwise get-or-create the
thread and append the stripped copy of the search message. -/
def searchStep (bs : List Agent) (c : Agent) (m : Message) (st : ThreadsState)
    (bid : String) : ThreadsState :=
  match findAgent bs bid with
  | none => st
  | some b =>
    let ts := appendToThread st.threads (threadKey c.id bid) c b (stripBusinessIds m) m.created_at
    { st with threads := ts }

/-- `customer_by_agent_id.get(from_agent) or customer_by_agent_id.get(to_agent)`
(with `dict.get(None)` returning `None`). -/
def resolveCustomer (cs : List Agent) (m : Message) : Option Agent :=
  match findAgent cs m.from_agent with
  | some c => some c
  | none =>
    match m.to_agent with
    | some t => findAgent cs t
    | none => none

/-- `business_by_agent_id.get(from_agent) or business_by_agent_id.get(to_agent)`. -/
def resolveBusiness (bs : List Agent) (m : Message) : Option Agent :=
  match findAgent bs m.from_agent with
  | some b => some b
  | none =>
    match m.to_agent with
    | some t => findAgent bs t
    | none => none

/-- The body of the `for message in messages` loop of
`_create_message_threads`. -/
def processMessage (cs bs : List Agent) (st : ThreadsState) (m : Message) :
    ThreadsState :=
  if m.type == "search" && m.business_ids.isSome then
    match findAgent cs m.from_agent with
    | none => st
    | some c => (m.business_ids.getD []).foldl (searchStep bs c m) st
  else
    match resolveCustomer cs m, resolveBusiness bs m with
    | some c, some b =>
      let k := threadKey c.id b.id
      { threads := appendToThread st.threads k c b m m.created_at
        withPayments :=
          if m.type == "payment" && m.from_agent == c.id then
            addFlag st.withPayments k
          else st.withPayments }
    | some _, none => st
    | none, _ => st

/-- `_create_message_threads(customers, businesses, messages)`. -/
def createMessageThreads (cs bs : List Agent) (msgs : List Message) :
    ThreadsState :=
  msgs.foldl (processMessage cs bs) ⟨[], []⟩

/-- The `(created_at, id)` ordering of the action stream: strictly earlier
timestamp, or equal timestamp with id tie-break. -/
def keyLe (m₁ m₂ : Message) : Prop :=
  m₁.created_at < m₂.created_at ∨
    (m₁.created_at = m₂.created_at ∧ m₁.id ≤ m₂.id)

instance : DecidableRel keyLe := fun m₁ m₂ => by
  unfold keyLe; infer_instance

instance : IsTotal Message keyLe where
  total m₁ m₂ := by
    unfold keyLe; omega

instance : IsTrans Message keyLe where
  trans m₁ m₂ m₃ h₁ h₂ := by
    unfold keyLe at *; omega

/-- Modelled from the spec: the storage collaborator
(`platform.database`, not under `src/`) delivers the action rows — and hence
the decoded message stream — sorted by `(created_at ascending, id ascending)`
with the id as stable tie-break.  The sort itself is realised with
`List.insertionSort` over `keyLe`. -/
def sortMessages (msgs : List Message) : List Message :=
  List.insertionSort keyLe msgs

/-- Thread assembly as specified: the deterministic fold of
`_create_message_threads` over the `(created_at, id)`-sorted message
stream. -/
def assembleThreads (cs bs : List Agent) (msgs : List Message) : ThreadsState :=
  createMessageThreads cs bs (sortMessages msgs)

/-- The character class `[a-zA-Z_]` of the schema-name regex. -/
def isWordStart (c : Char) : Bool :=
  (('a' ≤ c && c ≤ 'z') || ('A' ≤ c && c ≤ 'Z') || c == '_')

/-- The character class `[a-zA-Z0-9_]` of the schema-name regex. -/
def isWordChar (c : Char) : Bool :=
  isWordStart c || ('0' ≤ c && c ≤ '9')

/-- Whether a character sequence matches `[a-zA-Z_][a-zA-Z0-9_]*` in full. -/
def matchesCore : List Char → Bool
  | [] => false
  | c :: rest => isWordStart c && rest.all isWordChar

/-- `validate_schema_name` from `api/utils.py`:
`bool(re.match(r"^[a-zA-Z_][a-zA-Z0-9_]*$", name))`.  Python's `$` (without
`re.MULTILINE`) matches at the end of the string *or just before a single
trailing newline*, so the call also accepts `core + "\n"` whenever `core`
matches the character-class pattern. -/
def validate_schema_name (name : String) : Bool :=
  matchesCore name.data ||
    (name.data.getLast? == some '\n' && matchesCore name.data.dropLast)

/-- C10: the claim states `validate_schema_name(name)` is `True` iff `name`
is non-empty, starts with an ASCII letter or underscore, and consists only
of ASCII letters, digits and underscores — in particular `False` for every
string containing a newline.  The code violates this: Python's `$` also
matches just before a single trailing newline, so `"abc\n"` is accepted even
though it contains a character outside the documented class. -/
theorem validate_schema_name_trailing_newline_bug :
    validate_schema_name "abc\n" = true ∧
      '\n' ∈ "abc\n".data ∧ isWordChar '\n' = false := by
  decide

/-- Modelled from the spec: `ActionAdapter` (from
`magentic_marketplace.marketplace.actions`, not under `src/`) turns raw row
parameters into a closed set of typed action variants.  The variants
consumed by `_load_messages` are `SendMessage` (whose content carries the
message type — text / proposal / payment — and body) and `Search`.  The
decoded `SendMessage` carries its own `created_at`; the search view instead
uses row-level metadata. -/
inductive DecodedAction where
  | sendMessage (from_agent_id : String) (to_agent_id : String)
      (created_at : Nat) (msgType : String) (body : String)
  | search (query : String)
deriving DecidableEq, Repr

/-- Modelled from the spec: the raw `request.parameters` of a log row, seen
through the decoder — either parameters that validate to a typed action, or
malformed/unknown parameters on which `ActionAdapter.validate_python`
raises. -/
inductive RawParams where
  | valid (a : DecodedAction)
  | malformed
deriving DecidableEq, Repr

/-- Modelled from the spec: `ActionAdapter.validate_python` wrapped in the
`try/except` of `_load_messages`: a typed action, or a decode failure
(`none`) that must not propagate. -/
def decodeAction : RawParams → Option DecodedAction
  | .valid a => some a
  | .malformed => none

/-- The outer `result` marker of a log row: the `is_error` flag and the
result content (for searches, the `businesses` list whose entries may or
may not carry an `"id"` key). -/
structure ActionResult where
  is_error : Bool
  content : Option (List (Option String))
deriving DecidableEq, Repr

/-- A log row as returned by `db.actions.get_all()`: row id, row creation
time, the acting agent, the raw request parameters and the result marker. -/
structure ActionRow where
  id : Nat
  created_at : Nat
  agent_id : String
  params : RawParams
  result : ActionResult
deriving DecidableEq, Repr

/-- `[b.get("id") for b in result_content["businesses"] if "id" in b]`,
with the `if result_content and "businesses" in result_content` guard. -/
def searchBusinessIds (r : ActionResult) : List String :=
  match r.content with
  | some bs => bs.filterMap id
  | none => []

/-- The message dict `_load_messages` builds for one decoded row
(`SendMessage` branch and `Search` branch). -/
def mkMessage (row : ActionRow) : DecodedAction → Message
  | .sendMessage f t ca ty body =>
    { id := row.id
      from_agent := f
      to_agent := some t
      type := ty
      content := if ty == "text" then Content.text body else Content.dict ty body
      created_at := ca
      business_ids := none }
  | .search q =>
    { id := row.id
      from_agent := row.agent_id
      to_agent := none
      type := "search"
      content := Content.search q (searchBusinessIds row.result) (searchBusinessIds row.result).length
      created_at := row.created_at
      business_ids := some (searchBusinessIds row.result) }

/-- `_load_messages`: skip rows whose result marker is an error, decode the
rest, skip decode failures, and append one message view per decoded row. -/
def loadMessages (rows : List ActionRow) : List Message :=
  rows.foldl
    (fun acc row =>
      if row.result.is_error then acc
      else
        match decodeAction row.params with
        | none => acc
        | some a => acc ++ [mkMessage row a])
    []

/-- The view `_load_messages` produces for a single row: `none` exactly for
rows excluded before decoding (`is_error`) or skipped on decode failure. -/
def rowView (row : ActionRow) : Option Message :=
  if row.result.is_error then none
  else (decodeAction row.params).map (mkMessage row)

/-- A row that contributes to the output: not marked failed, and decodable. -/
def decodableRow (row : ActionRow) : Bool :=
  !row.result.is_error && (decodeAction row.params).isSome

theorem loadMessages_foldl_acc (rows : List ActionRow) (acc : List Message) :
    rows.foldl
        (fun acc row =>
          if row.result.is_error then acc
          else
            match decodeAction row.params with
            | none => acc
            | some a => acc ++ [mkMessage row a])
        acc
      = acc ++ rows.filterMap rowView := by
  induction rows generalizing acc with
  | nil => simp
  | cons r rs ih =>
    cases hre : r.result.is_error with
    | true => simp [rowView, hre, ih]
    | false =>
      cases hd : decodeAction r.params with
      | none => simp [rowView, hre, hd, ih]
      | some a => simp [rowView, hre, hd, ih]

theorem rowView_isSome_iff (row : ActionRow) :
    (rowView row).isSome = decodableRow row := by
  unfold rowView decodableRow
  cases hre : row.result.is_error with
  | true => simp [hre]
  | false =>
    cases hd : decodeAction row.params with
    | none => simp [hd]
    | some a => simp [hd]

/-- C6: decoding is total and partial-result preserving — rows whose result
marker is an error are excluded before decoding, rows whose parameters fail
to decode are skipped without raising, and the produced message list is
exactly the list of views of the decodable rows (in particular its length is
the number of decodable rows, however many undecodable rows are present). -/
theorem loadMessages_exactly_decodable_views (rows : List ActionRow) :
    loadMessages rows = rows.filterMap rowView ∧
      (loadMessages rows).length = (rows.filter decodableRow).length ∧
      (∀ row ∈ rows, row.result.is_error = true → rowView row = none) ∧
      (∀ row ∈ rows, decodeAction row.params = none → rowView row = none) := by
  refine ⟨?_, ?_, ?_, ?_⟩
  · exact loadMessages_foldl_acc rows []
  · rw [show loadMessages rows = rows.filterMap rowView from loadMessages_foldl_acc rows []]
    induction rows with
    | nil => simp
    | cons r rs ih =>
      rw [List.filterMap_cons, List.filter_cons]
      cases hv : rowView r with
      | none =>
        have : decodableRow r = false := by
          have := rowView_isSome_iff r
          rw [hv] at this
          simpa using this.symm
        simp [this, ih]
      | some x =>
        have : decodableRow r = true := by
          have := rowView_isSome_iff r
          rw [hv] at this
          simpa using this.symm
        simp [this, ih]
  · intro row _ h
    simp [rowView, h]
  · intro row _ h
    unfold rowView
    cases hre : row.result.is_error <;> simp [h]

/-- The message list of the thread at key `k` (empty when no such thread). -/
def msgsAt (ts : List (String × Thread)) (k : String) : List Message :=
  match lookupThread ts k with
  | some t => t.messages
  | none => []

/-- Total number of thread message appends performed so far. -/
def totalLen (ts : List (String × Thread)) : Nat :=
  (ts.map (fun p => p.2.messages.length)).sum

theorem containsKey_eq_isSome (ts : List (String × Thread)) (k : String) :
    containsKey ts k = (lookupThread ts k).isSome := by
  induction ts with
  | nil => rfl
  | cons p rest ih =>
    unfold containsKey lookupThread at *
    cases hpk : p.1 == k with
    | true => simp [List.any_cons, List.find?_cons, hpk]
    | false => simp [List.any_cons, List.find?_cons, hpk, ih]

theorem lookupThread_cons (p : String × Thread) (rest : List (String × Thread))
    (k : String) :
    lookupThread (p :: rest) k = if p.1 = k then some p.2 else lookupThread rest k := by
  unfold lookupThread
  rw [List.find?_cons]
  by_cases h : p.1 = k
  · simp [h]
  · rw [show (p.1 == k) = false by simpa using h]
    rw [if_neg h]

theorem updateAt_cons (p : String × Thread) (rest : List (String × Thread))
    (k : String) (f : Thread → Thread) :
    updateAt (p :: rest) k f =
      (if p.1 = k then (p.1, f p.2) else p) :: updateAt rest k f := by
  unfold updateAt
  rw [List.map_cons]
  by_cases h : p.1 = k <;> simp [h]

theorem containsKey_cons (p : String × Thread) (rest : List (String × Thread))
    (k : String) :
    containsKey (p :: rest) k = (decide (p.1 = k) || containsKey rest k) := by
  unfold containsKey
  rw [List.any_cons]
  by_cases h : p.1 = k <;> simp [h]

theorem lookupThread_updateAt (ts : List (String × Thread)) (k : String)
    (f : Thread → Thread) (k' : String) :
    lookupThread (updateAt ts k f) k' =
      if k' = k then (lookupThread ts k).map f else lookupThread ts k' := by
  induction ts with
  | nil =>
    by_cases h : k' = k <;> simp [updateAt, lookupThread, h]
  | cons p rest ih =>
    rw [updateAt_cons]
    by_cases hpk : p.1 = k <;> by_cases hpk' : p.1 = k'
    · have hk : k' = k := hpk'.symm.trans hpk
      simp [lookupThread_cons, hpk, hpk', hk]
    · have hk : ¬ k' = k := fun h => hpk' (hpk.trans h.symm)
      have hk2 : ¬ k = k' := fun h => hk h.symm
      simp [lookupThread_cons, hpk, hpk', hk, hk2, ih]
    · have hk : ¬ k' = k := fun h => hpk (hpk'.trans h)
      simp [lookupThread_cons, hpk, hpk', hk]
    · simp [lookupThread_cons, hpk, hpk', ih]

theorem lookupThread_append_single (ts : List (String × Thread)) (k : String)
    (t : Thread) (k' : String) :
    lookupThread (ts ++ [(k, t)]) k' =
      match lookupThread ts k' with
      | some x => some x
      | none => if k' = k then some t else none := by
  induction ts with
  | nil =>
    rw [List.nil_append]
    rw [show lookupThread ([] : List (String × Thread)) k' = none from rfl]
    rw [lookupThread_cons]
    by_cases h : k = k'
    · simp [h, lookupThread]
    · have h' : ¬ k' = k := fun hh => h hh.symm
      simp [h, h', lookupThread]
  | cons p rest ih =>
    rw [List.cons_append, lookupThread_cons, lookupThread_cons]
    by_cases hpk : p.1 = k'
    · simp [hpk]
    · simp only [hpk, if_false, if_neg hpk]
      exact ih

theorem updateAt_of_not_contains (ts : List (String × Thread)) (k : String)
    (f : Thread → Thread) (h : containsKey ts k = false) :
    updateAt ts k f = ts := by
  induction ts with
  | nil => rfl
  | cons p rest ih =>
    rw [containsKey_cons] at h
    simp only [Bool.or_eq_false_iff, decide_eq_false_iff_not] at h
    rw [updateAt_cons, if_neg h.1, ih h.2]

theorem containsKey_eq_mem (ts : List (String × Thread)) (k : String) :
    containsKey ts k = true ↔ k ∈ ts.map Prod.fst := by
  unfold containsKey
  rw [List.any_eq_true]
  constructor
  · rintro ⟨p, hp, hpk⟩
    rw [beq_iff_eq] at hpk
    exact hpk ▸ List.mem_map_of_mem Prod.fst hp
  · intro h
    rcases List.mem_map.mp h with ⟨p, hp, hpk⟩
    exact ⟨p, hp, by rw [beq_iff_eq]; exact hpk⟩

theorem lookupThread_appendToThread_self (ts : List (String × Thread))
    (k : String) (c b : Agent) (x : Message) (time : Nat) :
    lookupThread (appendToThread ts k c b x time) k =
      some
        (let t0 := (lookupThread ts k).getD ⟨c, b, [], time, 0⟩
         { t0 with messages := t0.messages ++ [x], lastMessageTime := time }) := by
  unfold appendToThread
  cases hck : containsKey ts k with
  | true =>
    rw [if_pos rfl] at *
    rw [lookupThread_updateAt, if_pos rfl]
    rw [containsKey_eq_isSome] at hck
    rcases ho : lookupThread ts k with _ | t0
    · rw [ho] at hck; simp at hck
    · simp
  | false =>
    simp only [Bool.false_eq_true, if_false]
    rw [lookupThread_updateAt, if_pos rfl]
    rw [lookupThread_append_single]
    have : lookupThread ts k = none := by
      rw [containsKey_eq_isSome] at hck
      rcases ho : lookupThread ts k with _ | t0
      · rfl
      · rw [ho] at hck; simp at hck
    rw [this]
    simp

theorem lookupThread_appendToThread_ne (ts : List (String × Thread))
    (k : String) (c b : Agent) (x : Message) (time : Nat) (k' : String)
    (h : ¬ k' = k) :
    lookupThread (appendToThread ts k c b x time) k' = lookupThread ts k' := by
  unfold appendToThread
  cases hck : containsKey ts k with
  | true =>
    rw [if_pos rfl]
    rw [lookupThread_updateAt, if_neg h]
  | false =>
    simp only [Bool.false_eq_true, if_false]
    rw [lookupThread_updateAt, if_neg h]
    rw [lookupThread_append_single]
    rcases ho : lookupThread ts k' with _ | t0
    · simp [h]
    · simp

theorem keys_updateAt (ts : List (String × Thread)) (k : String)
    (f : Thread → Thread) :
    (updateAt ts k f).map Prod.fst = ts.map Prod.fst := by
  induction ts with
  | nil => rfl
  | cons p rest ih =>
    rw [updateAt_cons, List.map_cons, List.map_cons, ih]
    by_cases h : p.1 = k <;> simp [h]

theorem keys_appendToThread (ts : List (String × Thread)) (k : String)
    (c b : Agent) (x : Message) (time : Nat) :
    (appendToThread ts k c b x time).map Prod.fst =
      if containsKey ts k then ts.map Prod.fst else ts.map Prod.fst ++ [k] := by
  unfold appendToThread
  cases hck : containsKey ts k with
  | true => rw [if_pos rfl, if_pos rfl, keys_updateAt]
  | false =>
    simp only [Bool.false_eq_true, if_false]
    rw [keys_updateAt, List.map_append]
    rfl

theorem keysNodup_appendToThread (ts : List (String × Thread)) (k : String)
    (c b : Agent) (x : Message) (time : Nat)
    (h : (ts.map Prod.fst).Nodup) :
    ((appendToThread ts k c b x time).map Prod.fst).Nodup := by
  rw [keys_appendToThread]
  cases hck : containsKey ts k with
  | true => simpa using h
  | false =>
    simp only [Bool.false_eq_true, if_false]
    have hnm : ¬ k ∈ ts.map Prod.fst := by
      intro hm
      rw [← containsKey_eq_mem] at hm
      rw [hck] at hm
      exact Bool.false_ne_true hm
    rw [List.nodup_append]
    refine ⟨h, List.nodup_singleton k, fun a ha hb => ?_⟩
    rw [List.mem_singleton] at hb
    subst hb
    exact hnm ha

theorem totalLen_cons (p : String × Thread) (rest : List (String × Thread)) :
    totalLen (p :: rest) = p.2.messages.length + totalLen rest := by
  simp [totalLen]

theorem totalLen_append_single (ts : List (String × Thread)) (k : String)
    (t : Thread) :
    totalLen (ts ++ [(k, t)]) = totalLen ts + t.messages.length := by
  simp [totalLen]

theorem totalLen_updateAt_append (ts : List (String × Thread)) (k : String)
    (x : Message) (time : Nat) (hnd : (ts.map Prod.fst).Nodup)
    (hck : containsKey ts k = true) :
    totalLen (updateAt ts k
        (fun t => { t with messages := t.messages ++ [x], lastMessageTime := time })) =
      totalLen ts + 1 := by
  induction ts with
  | nil => simp [containsKey] at hck
  | cons p rest ih =>
    rw [List.map_cons, List.nodup_cons] at hnd
    rw [updateAt_cons]
    by_cases hpk : p.1 = k
    · have hrest : containsKey rest k = false := by
        cases hc : containsKey rest k with
        | false => rfl
        | true =>
          rw [containsKey_eq_mem] at hc
          exact absurd (hpk ▸ hc) hnd.1
      rw [if_pos hpk, updateAt_of_not_contains rest k _ hrest]
      rw [totalLen_cons, totalLen_cons]
      show (p.2.messages ++ [x]).length + totalLen rest =
        p.2.messages.length + totalLen rest + 1
      rw [List.length_append, List.length_singleton]
      omega
    · rw [containsKey_cons, Bool.or_eq_true, decide_eq_true_eq] at hck
      have hrest : containsKey rest k = true := hck.resolve_left hpk
      rw [if_neg hpk, totalLen_cons, totalLen_cons, ih hnd.2 hrest]
      omega

theorem totalLen_appendToThread (ts : List (String × Thread)) (k : String)
    (c b : Agent) (x : Message) (time : Nat)
    (hnd : (ts.map Prod.fst).Nodup) :
    totalLen (appendToThread ts k c b x time) = totalLen ts + 1 := by
  unfold appendToThread
  cases hck : containsKey ts k with
  | true =>
    rw [if_pos rfl]
    exact totalLen_updateAt_append ts k x time hnd hck
  | false =>
    simp only [Bool.false_eq_true, if_false]
    have hnm : ¬ k ∈ ts.map Prod.fst := by
      intro hm
      rw [← containsKey_eq_mem] at hm
      rw [hck] at hm
      exact Bool.false_ne_true hm
    have hnd1 : ((ts ++ [(k, (⟨c, b, [], time, 0⟩ : Thread))]).map Prod.fst).Nodup := by
      rw [List.map_append, List.nodup_append]
      refine ⟨hnd, List.nodup_singleton k, fun a ha hb => ?_⟩
      rw [show (List.map Prod.fst [(k, (⟨c, b, [], time, 0⟩ : Thread))]) = [k] from rfl] at hb
      rw [List.mem_singleton] at hb
      subst hb
      exact hnm ha
    have hck1 : containsKey (ts ++ [(k, (⟨c, b, [], time, 0⟩ : Thread))]) k = true := by
      rw [containsKey_eq_mem]
      simp
    rw [totalLen_updateAt_append _ k x time hnd1 hck1, totalLen_append_single]
    simp

theorem msgsAt_eq_of_lookup_some (ts : List (String × Thread)) (k : String)
    (t : Thread) (h : lookupThread ts k = some t) : msgsAt ts k = t.messages := by
  unfold msgsAt
  rw [h]

theorem msgsAt_eq_of_lookup_none (ts : List (String × Thread)) (k : String)
    (h : lookupThread ts k = none) : msgsAt ts k = [] := by
  unfold msgsAt
  rw [h]

/-- How one fold step of `_create_message_threads` can affect the thread at
key `k`: either the binding is untouched, or the binding now holds the old
message list extended by a non-empty batch of copies of the current message
(same `created_at` and id), with `lastMessageTime` refreshed to the current
message's `created_at`. -/
def StepRel (m : Message) (ts ts' : List (String × Thread)) (k : String) : Prop :=
  lookupThread ts' k = lookupThread ts k ∨
    ∃ t' suf, lookupThread ts' k = some t' ∧
      t'.lastMessageTime = m.created_at ∧ suf ≠ [] ∧
      (∀ x ∈ suf, x.created_at = m.created_at ∧ x.id = m.id) ∧
      t'.messages = msgsAt ts k ++ suf

theorem stepRel_refl (m : Message) (ts : List (String × Thread)) (k : String) :
    StepRel m ts ts k :=
  Or.inl rfl

theorem stepRel_trans (m : Message) (ts ts1 ts2 : List (String × Thread))
    (k : String) (h1 : StepRel m ts ts1 k) (h2 : StepRel m ts1 ts2 k) :
    StepRel m ts ts2 k := by
  rcases h1 with h1 | ⟨t1, suf1, hl1, hlast1, hne1, hsuf1, hmsg1⟩
  · rcases h2 with h2 | ⟨t2, suf2, hl2, hlast2, hne2, hsuf2, hmsg2⟩
    · exact Or.inl (h2.trans h1)
    · refine Or.inr ⟨t2, suf2, hl2, hlast2, hne2, hsuf2, ?_⟩
      rw [hmsg2]
      unfold msgsAt
      rw [h1]
  · rcases h2 with h2 | ⟨t2, suf2, hl2, hlast2, hne2, hsuf2, hmsg2⟩
    · exact Or.inr ⟨t1, suf1, h2.trans hl1, hlast1, hne1, hsuf1, hmsg1⟩
    · refine Or.inr ⟨t2, suf1 ++ suf2, hl2, hlast2, ?_, ?_, ?_⟩
      · intro hc
        exact hne1 (List.append_eq_nil.mp hc).1
      · intro x hx
        rcases List.mem_append.mp hx with hx | hx
        · exact hsuf1 x hx
        · exact hsuf2 x hx
      · rw [hmsg2, msgsAt_eq_of_lookup_some ts1 k t1 hl1, hmsg1, List.append_assoc]

theorem stepRel_appendToThread (m : Message) (ts : List (String × Thread))
    (k0 : String) (c b : Agent) (x : Message) (k : String)
    (hx : x.created_at = m.created_at ∧ x.id = m.id) :
    StepRel m ts (appendToThread ts k0 c b x m.created_at) k := by
  by_cases hk : k = k0
  · subst hk
    refine Or.inr ⟨_, [x], lookupThread_appendToThread_self ts k c b x m.created_at,
      rfl, by simp, ?_, ?_⟩
    · intro y hy
      rw [List.mem_singleton] at hy
      subst hy
      exact hx
    · rcases ho : lookupThread ts k with _ | t0
      · rw [msgsAt_eq_of_lookup_none ts k ho]
        simp [ho]
      · rw [msgsAt_eq_of_lookup_some ts k t0 ho]
        simp [ho]
  · exact Or.inl (lookupThread_appendToThread_ne ts k0 c b x m.created_at k hk)

theorem searchStep_withPayments (bs : List Agent) (c : Agent) (m : Message)
    (st : ThreadsState) (bid : String) :
    (searchStep bs c m st bid).withPayments = st.withPayments := by
  unfold searchStep
  cases findAgent bs bid <;> rfl

theorem searchFold_withPayments (bs : List Agent) (c : Agent) (m : Message)
    (bids : List String) :
    ∀ st : ThreadsState,
      (bids.foldl (searchStep bs c m) st).withPayments = st.withPayments := by
  induction bids with
  | nil => intro st; rfl
  | cons bid rest ih =>
    intro st
    rw [List.foldl_cons, ih (searchStep bs c m st bid), searchStep_withPayments]

theorem stepRel_searchStep (bs : List Agent) (c : Agent) (m : Message)
    (st : ThreadsState) (bid : String) (k : String) :
    StepRel m st.threads (searchStep bs c m st bid).threads k := by
  unfold searchStep
  cases hb : findAgent bs bid with
  | none => exact stepRel_refl m st.threads k
  | some b =>
    exact stepRel_appendToThread m st.threads (threadKey c.id bid) c b
      (stripBusinessIds m) k ⟨rfl, rfl⟩

theorem stepRel_searchFold (bs : List Agent) (c : Agent) (m : Message)
    (bids : List String) (k : String) :
    ∀ st : ThreadsState,
      StepRel m st.threads ((bids.foldl (searchStep bs c m) st)).threads k := by
  induction bids with
  | nil => intro st; exact stepRel_refl m st.threads k
  | cons bid rest ih =>
    intro st
    rw [List.foldl_cons]
    exact stepRel_trans m st.threads (searchStep bs c m st bid).threads _ k
      (stepRel_searchStep bs c m st bid k) (ih (searchStep bs c m st bid))

theorem stepRel_processMessage (cs bs : List Agent) (st : ThreadsState)
    (m : Message) (k : String) :
    StepRel m st.threads (processMessage cs bs st m).threads k := by
  unfold processMessage
  cases hcond : (m.type == "search" && m.business_ids.isSome) with
  | true =>
    simp only [if_pos rfl]
    cases hc : findAgent cs m.from_agent with
    | none => exact stepRel_refl m st.threads k
    | some c => exact stepRel_searchFold bs c m (m.business_ids.getD []) k st
  | false =>
    simp only [Bool.false_eq_true, if_false]
    cases hcu : resolveCustomer cs m with
    | none => exact stepRel_refl m st.threads k
    | some c =>
      cases hbu : resolveBusiness bs m with
      | none => exact stepRel_refl m st.threads k
      | some b =>
        exact stepRel_appendToThread m st.threads (threadKey c.id b.id) c b m k
          ⟨rfl, rfl⟩

/-- Maximum of a list of naturals (0 on the empty list). -/
def listMaxN (l : List Nat) : Nat :=
  l.foldr max 0

theorem listMaxN_cons (n : Nat) (l : List Nat) :
    listMaxN (n :: l) = max n (listMaxN l) := rfl

theorem le_listMaxN_of_mem (l : List Nat) (n : Nat) (h : n ∈ l) :
    n ≤ listMaxN l := by
  induction l with
  | nil => cases h
  | cons a rest ih =>
    rw [listMaxN_cons]
    rcases List.mem_cons.mp h with h | h
    · subst h; exact le_max_left _ _
    · exact le_trans (ih h) (le_max_right _ _)

theorem listMaxN_le (l : List Nat) (c : Nat) (h : ∀ n ∈ l, n ≤ c) :
    listMaxN l ≤ c := by
  induction l with
  | nil => exact Nat.zero_le c
  | cons a rest ih =>
    rw [listMaxN_cons]
    exact max_le (h a (List.mem_cons_self a rest))
      (ih fun n hn => h n (List.mem_cons_of_mem a hn))

theorem listMaxN_eq_of (l : List Nat) (v : Nat) (hub : ∀ n ∈ l, n ≤ v)
    (hmem : v ∈ l) : listMaxN l = v :=
  le_antisymm (listMaxN_le l v hub) (le_listMaxN_of_mem l v hmem)

theorem keyLe_of_same_key_right (x m y : Message) (h : keyLe x m)
    (hc : y.created_at = m.created_at) (hi : y.id = m.id) : keyLe x y := by
  unfold keyLe at *
  omega

theorem keyLe_of_same_key_left (x m y : Message) (h : keyLe m y)
    (hc : x.created_at = m.created_at) (hi : x.id = m.id) : keyLe x y := by
  unfold keyLe at *
  omega

theorem keyLe_created_le (x m : Message) (h : keyLe x m) :
    x.created_at ≤ m.created_at := by
  unfold keyLe at h
  omega

theorem pairwise_of_forall_mem {α : Type} {R : α → α → Prop} (l : List α)
    (h : ∀ x ∈ l, ∀ y ∈ l, R x y) : l.Pairwise R := by
  induction l with
  | nil => exact List.Pairwise.nil
  | cons a rest ih =>
    refine List.Pairwise.cons ?_ (ih ?_)
    · intro y hy
      exact h a (List.mem_cons_self a rest) y (List.mem_cons_of_mem a hy)
    · intro x hx y hy
      exact h x (List.mem_cons_of_mem a hx) y (List.mem_cons_of_mem a hy)

/-- The invariant maintained thread-by-thread while folding the remaining
stream `rest`: every existing thread is non-empty, internally ordered by
`(created_at, id)`, carries `lastMessageTime` equal to the maximum
`created_at` of its own messages, and all its messages precede everything
still to be folded. -/
def StateChron (st : ThreadsState) (rest : List Message) : Prop :=
  ∀ k t, lookupThread st.threads k = some t →
    t.messages ≠ [] ∧ t.messages.Pairwise keyLe ∧
      t.lastMessageTime = listMaxN (t.messages.map Message.created_at) ∧
      ∀ x ∈ t.messages, ∀ m ∈ rest, keyLe x m

theorem stateChron_step (cs bs : List Agent) (st : ThreadsState) (m : Message)
    (rest : List Message) (hm : ∀ m' ∈ rest, keyLe m m')
    (hinv : StateChron st (m :: rest)) :
    StateChron (processMessage cs bs st m) rest := by
  intro k t hlook
  rcases stepRel_processMessage cs bs st m k with heq | ⟨t', suf, hl, hlast, hne, hsuf, hmsgs⟩
  · rw [heq] at hlook
    rcases hinv k t hlook with ⟨h1, h2, h3, h4⟩
    exact ⟨h1, h2, h3, fun x hx m' hm' => h4 x hx m' (List.mem_cons_of_mem m hm')⟩
  · rw [hl] at hlook
    cases hlook
    have hold : ∀ x ∈ msgsAt st.threads k, ∀ m' ∈ m :: rest, keyLe x m' := by
      intro x hx m' hm'
      rcases ho : lookupThread st.threads k with _ | t0
      · rw [msgsAt_eq_of_lookup_none _ _ ho] at hx
        cases hx
      · rw [msgsAt_eq_of_lookup_some _ _ _ ho] at hx
        exact (hinv k t0 ho).2.2.2 x hx m' hm'
    have holdPW : (msgsAt st.threads k).Pairwise keyLe := by
      rcases ho : lookupThread st.threads k with _ | t0
      · rw [msgsAt_eq_of_lookup_none _ _ ho]
        exact List.Pairwise.nil
      · rw [msgsAt_eq_of_lookup_some _ _ _ ho]
        exact (hinv k t0 ho).2.1
    refine ⟨?_, ?_, ?_, ?_⟩
    · rw [hmsgs]
      intro hcon
      exact hne (List.append_eq_nil.mp hcon).2
    · rw [hmsgs]
      rw [List.pairwise_append]
      refine ⟨holdPW, ?_, ?_⟩
      · refine pairwise_of_forall_mem suf ?_
        intro x hx y hy
        rcases hsuf x hx with ⟨hxc, hxi⟩
        rcases hsuf y hy with ⟨hyc, hyi⟩
        unfold keyLe
        omega
      · intro x hx y hy
        rcases hsuf y hy with ⟨hyc, hyi⟩
        exact keyLe_of_same_key_right x m y
          (hold x hx m (List.mem_cons_self m rest)) hyc hyi
    · rw [hmsgs, hlast]
      rw [List.map_append]
      refine (listMaxN_eq_of _ m.created_at ?_ ?_).symm
      · intro n hn
        rcases List.mem_append.mp hn with hn | hn
        · rcases List.mem_map.mp hn with ⟨x, hx, hxn⟩
          subst hxn
          exact keyLe_created_le x m (hold x hx m (List.mem_cons_self m rest))
        · rcases List.mem_map.mp hn with ⟨x, hx, hxn⟩
          subst hxn
          exact le_of_eq (hsuf x hx).1
      · rcases List.exists_mem_of_ne_nil suf hne with ⟨y, hy⟩
        refine List.mem_append.mpr (Or.inr ?_)
        rw [← (hsuf y hy).1]
        exact List.mem_map_of_mem Message.created_at hy
    · rw [hmsgs]
      intro x hx m' hm'
      rcases List.mem_append.mp hx with hx | hx
      · exact hold x hx m' (List.mem_cons_of_mem m hm')
      · rcases hsuf x hx with ⟨hxc, hxi⟩
        exact keyLe_of_same_key_left x m m' (hm m' hm') hxc hxi

theorem stateChron_fold (cs bs : List Agent) :
    ∀ (msgs : List Message) (st : ThreadsState), msgs.Pairwise keyLe →
      StateChron st msgs →
      StateChron (msgs.foldl (processMessage cs bs) st) [] := by
  intro msgs
  induction msgs with
  | nil => intro st _ h; exact h
  | cons m rest ih =>
    intro st hpw hinv
    rw [List.pairwise_cons] at hpw
    rw [List.foldl_cons]
    exact ih (processMessage cs bs st m) hpw.2
      (stateChron_step cs bs st m rest hpw.1 hinv)

theorem stateChron_initial (msgs : List Message) :
    StateChron ⟨[], []⟩ msgs := by
  intro k t hlook
  simp [lookupThread] at hlook

/-- C2: for every thread in the map returned by thread assembly, the
thread's `lastMessageTime` equals the maximum `created_at` over that
thread's own stored messages (the message list is never empty, so the
maximum is over a non-empty set). -/
theorem assembleThreads_lastMessageTime_max (cs bs : List Agent)
    (msgs : List Message) (k : String) (t : Thread)
    (h : lookupThread (assembleThreads cs bs msgs).threads k = some t) :
    t.messages ≠ [] ∧
      t.lastMessageTime = listMaxN (t.messages.map Message.created_at) := by
  have hs : (sortMessages msgs).Pairwise keyLe :=
    List.sorted_insertionSort keyLe msgs
  have hfold := stateChron_fold cs bs (sortMessages msgs) ⟨[], []⟩ hs
    (stateChron_initial (sortMessages msgs))
  rcases hfold k t h with ⟨h1, _, h3, _⟩
  exact ⟨h1, h3⟩

def c2cs : List Agent := [⟨"c"⟩]

def c2bs : List Agent := [⟨"b"⟩]

def c2m1 : Message := ⟨1, "c", some "b", "text", Content.text "hi", 5, none⟩

def c2m2 : Message := ⟨2, "c", some "b", "text", Content.text "yo", 3, none⟩

def c2t : Thread := ⟨⟨"c"⟩, ⟨"b"⟩, [c2m2, c2m1], 5, 0⟩

theorem assembleThreads_lastMessageTime_max_witness :
    lookupThread (assembleThreads c2cs c2bs [c2m1, c2m2]).threads "c-b" = some c2t ∧
      (c2t.messages ≠ [] ∧
        c2t.lastMessageTime = listMaxN (c2t.messages.map Message.created_at)) :=
  ⟨by decide, assembleThreads_lastMessageTime_max c2cs c2bs [c2m1, c2m2] "c-b" c2t (by decide)⟩

/-- Strict `(created_at, id)` order. -/
def keyLt (m₁ m₂ : Message) : Prop :=
  m₁.created_at < m₂.created_at ∨
    (m₁.created_at = m₂.created_at ∧ m₁.id < m₂.id)

theorem keyLt_asymm (a b : Message) (h : keyLt a b) : ¬ keyLt b a := by
  unfold keyLt at *
  omega

theorem pairwise_and {α : Type} {R S : α → α → Prop} :
    ∀ l : List α, l.Pairwise R → l.Pairwise S →
      l.Pairwise (fun a b => R a b ∧ S a b) := by
  intro l
  induction l with
  | nil => intro _ _; exact List.Pairwise.nil
  | cons a rest ih =>
    intro hR hS
    rw [List.pairwise_cons] at hR hS
    exact List.Pairwise.cons (fun y hy => ⟨hR.1 y hy, hS.1 y hy⟩) (ih hR.2 hS.2)

theorem perm_pairwise_asymm_eq {α : Type} {r : α → α → Prop}
    (hasymm : ∀ a b, r a b → ¬ r b a) :
    ∀ (l₁ l₂ : List α), l₁.Perm l₂ → l₁.Pairwise r → l₂.Pairwise r → l₁ = l₂ := by
  intro l₁
  induction l₁ with
  | nil =>
    intro l₂ hp _ _
    exact (hp.symm.eq_nil).symm
  | cons a t₁ ih =>
    intro l₂ hp hpw₁ hpw₂
    cases l₂ with
    | nil => exact absurd hp.eq_nil (by simp)
    | cons b t₂ =>
      by_cases hab : a = b
      · subst hab
        rw [List.pairwise_cons] at hpw₁ hpw₂
        rw [ih t₂ hp.cons_inv hpw₁.2 hpw₂.2]
      · have ha2 : a ∈ b :: t₂ := hp.subset (List.mem_cons_self a t₁)
        have hb1 : b ∈ a :: t₁ := hp.symm.subset (List.mem_cons_self b t₂)
        have ha2' : a ∈ t₂ := by
          rcases List.mem_cons.mp ha2 with h | h
          · exact absurd h hab
          · exact h
        have hb1' : b ∈ t₁ := by
          rcases List.mem_cons.mp hb1 with h | h
          · exact absurd h.symm hab
          · exact h
        rw [List.pairwise_cons] at hpw₁ hpw₂
        exact absurd (hpw₂.1 a ha2') (fun hba => hasymm a b (hpw₁.1 b hb1') hba)

theorem pairwise_keyLt_of_le_nodup (l : List Message) (hpw : l.Pairwise keyLe)
    (hnd : (l.map Message.id).Nodup) : l.Pairwise keyLt := by
  have hne : l.Pairwise (fun a b : Message => a.id ≠ b.id) := by
    rw [List.Nodup, List.pairwise_map] at hnd
    exact hnd
  refine (pairwise_and l hpw hne).imp ?_
  intro a b hab
  rcases hab with ⟨hle, hne'⟩
  unfold keyLe at hle
  unfold keyLt
  omega

theorem sortMessages_perm (msgs : List Message) :
    (sortMessages msgs).Perm msgs :=
  List.perm_insertionSort keyLe msgs

theorem sortMessages_eq_of_perm (msgs msgs' : List Message)
    (hperm : msgs.Perm msgs') (hids : (msgs.map Message.id).Nodup) :
    sortMessages msgs' = sortMessages msgs := by
  have hp : (sortMessages msgs').Perm (sortMessages msgs) :=
    ((sortMessages_perm msgs').trans hperm.symm).trans (sortMessages_perm msgs).symm
  have hids' : ((sortMessages msgs').map Message.id).Nodup := by
    have h1 : (msgs'.map Message.id).Nodup := (hperm.map Message.id).nodup_iff.mp hids
    exact ((sortMessages_perm msgs').map Message.id).nodup_iff.mpr h1
  have hids2 : ((sortMessages msgs).map Message.id).Nodup :=
    ((sortMessages_perm msgs).map Message.id).nodup_iff.mpr hids
  exact perm_pairwise_asymm_eq keyLt_asymm (sortMessages msgs') (sortMessages msgs) hp
    (pairwise_keyLt_of_le_nodup _ (List.sorted_insertionSort keyLe msgs') hids')
    (pairwise_keyLt_of_le_nodup _ (List.sorted_insertionSort keyLe msgs) hids2)

/-- C1: thread assembly is a deterministic fold over the stream sorted by
`(created_at ascending, id ascending)`: assembling any permutation of a
message list (with the spec's unique ids) yields exactly the same state as
assembling the original list, and within every produced thread the stored
messages are ordered chronologically with the id tie-break. -/
theorem assembleThreads_deterministic_sorted_fold (cs bs : List Agent)
    (msgs msgs' : List Message) (hperm : msgs.Perm msgs')
    (hids : (msgs.map Message.id).Nodup) :
    assembleThreads cs bs msgs' = assembleThreads cs bs msgs ∧
      ∀ k t, lookupThread (assembleThreads cs bs msgs).threads k = some t →
        t.messages.Pairwise keyLe := by
  constructor
  · unfold assembleThreads
    rw [sortMessages_eq_of_perm msgs msgs' hperm hids]
  · intro k t h
    have hs : (sortMessages msgs).Pairwise keyLe :=
      List.sorted_insertionSort keyLe msgs
    have hfold := stateChron_fold cs bs (sortMessages msgs) ⟨[], []⟩ hs
      (stateChron_initial (sortMessages msgs))
    exact (hfold k t h).2.1

def c1cs : List Agent := [⟨"c"⟩]

def c1bs : List Agent := [⟨"b"⟩]

def c1m1 : Message := ⟨1, "c", some "b", "text", Content.text "one", 4, none⟩

def c1m2 : Message := ⟨2, "c", some "b", "text", Content.text "two", 4, none⟩

def c1m3 : Message := ⟨3, "b", some "c", "text", Content.text "three", 2, none⟩

theorem assembleThreads_deterministic_sorted_fold_witness :
    assembleThreads c1cs c1bs [c1m2, c1m3, c1m1] =
        assembleThreads c1cs c1bs [c1m1, c1m2, c1m3] ∧
      ∀ k t,
        lookupThread (assembleThreads c1cs c1bs [c1m1, c1m2, c1m3]).threads k = some t →
          t.messages.Pairwise keyLe :=
  assembleThreads_deterministic_sorted_fold c1cs c1bs [c1m1, c1m2, c1m3]
    [c1m2, c1m3, c1m1] (by decide) (by decide)

theorem string_data_append (s t : String) : (s ++ t).data = s.data ++ t.data := by
  cases s
  cases t
  rfl

theorem string_eq_of_data_eq (s t : String) (h : s.data = t.data) : s = t := by
  cases s
  cases t
  exact congrArg String.mk h

theorem threadKey_data (c b : String) :
    (threadKey c b).data = c.data ++ '-' :: b.data := by
  unfold threadKey
  rw [string_data_append, string_data_append, List.append_assoc]
  rfl

theorem append_hyphen_inj :
    ∀ (l₁ l₂ r₁ r₂ : List Char), ('-') ∉ l₁ → ('-') ∉ l₂ →
      l₁ ++ '-' :: r₁ = l₂ ++ '-' :: r₂ → l₁ = l₂ ∧ r₁ = r₂ := by
  intro l₁
  induction l₁ with
  | nil =>
    intro l₂ r₁ r₂ _ h₂ h
    cases l₂ with
    | nil =>
      rw [List.nil_append, List.nil_append] at h
      exact ⟨rfl, (List.cons.injEq _ _ _ _).mp h |>.2⟩
    | cons c t =>
      rw [List.nil_append, List.cons_append] at h
      have hc : '-' = c := ((List.cons.injEq _ _ _ _).mp h).1
      exact absurd (hc ▸ List.mem_cons_self c t) h₂
  | cons a t₁ ih =>
    intro l₂ r₁ r₂ h₁ h₂ h
    cases l₂ with
    | nil =>
      rw [List.nil_append, List.cons_append] at h
      have hc : a = '-' := ((List.cons.injEq _ _ _ _).mp h).1
      exact absurd (hc ▸ List.mem_cons_self a t₁) (hc ▸ h₁)
    | cons c t₂ =>
      rw [List.cons_append, List.cons_append] at h
      rcases (List.cons.injEq _ _ _ _).mp h with ⟨hac, htail⟩
      have hrec := ih t₂ r₁ r₂ (fun hm => h₁ (List.mem_cons_of_mem a hm))
        (fun hm => h₂ (List.mem_cons_of_mem c hm)) htail
      exact ⟨by rw [hac, hrec.1], hrec.2⟩

theorem threadKey_inj (c₁ b₁ c₂ b₂ : String) (h₁ : ('-') ∉ c₁.data)
    (h₂ : ('-') ∉ c₂.data) (h : threadKey c₁ b₁ = threadKey c₂ b₂) :
    c₁ = c₂ ∧ b₁ = b₂ := by
  have hd : (threadKey c₁ b₁).data = (threadKey c₂ b₂).data := by rw [h]
  rw [threadKey_data, threadKey_data] at hd
  rcases append_hyphen_inj c₁.data c₂.data b₁.data b₂.data h₁ h₂ hd with ⟨hc, hb⟩
  exact ⟨string_eq_of_data_eq _ _ hc, string_eq_of_data_eq _ _ hb⟩

theorem threadKey_right_inj (c b₁ b₂ : String)
    (h : threadKey c b₁ = threadKey c b₂) : b₁ = b₂ := by
  have hd : (threadKey c b₁).data = (threadKey c b₂).data := by rw [h]
  rw [threadKey_data, threadKey_data] at hd
  have := List.append_cancel_left hd
  exact string_eq_of_data_eq _ _ ((List.cons.injEq _ _ _ _).mp this).2

theorem findAgent_foldl_aux (i : String) :
    ∀ (l : List Agent) (acc : Option Agent) (a : Agent),
      l.foldl (fun acc x => if x.id == i then some x else acc) acc = some a →
      (a ∈ l ∧ a.id = i) ∨ acc = some a := by
  intro l
  induction l with
  | nil =>
    intro acc a h
    exact Or.inr h
  | cons x rest ih =>
    intro acc a h
    rw [List.foldl_cons] at h
    by_cases hx : x.id = i
    · rw [if_pos (by rwa [beq_iff_eq])] at h
      rcases ih (some x) a h with h' | h'
      · exact Or.inl ⟨List.mem_cons_of_mem x h'.1, h'.2⟩
      · have : x = a := by injection h'
        subst this
        exact Or.inl ⟨List.mem_cons_self x rest, hx⟩
    · rw [if_neg (by simpa using hx)] at h
      rcases ih acc a h with h' | h'
      · exact Or.inl ⟨List.mem_cons_of_mem x h'.1, h'.2⟩
      · exact Or.inr h'

theorem findAgent_some (l : List Agent) (i : String) (a : Agent)
    (h : findAgent l i = some a) : a ∈ l ∧ a.id = i := by
  rcases findAgent_foldl_aux i l none a h with h' | h'
  · exact h'
  · cases h'

theorem keysNodup_searchStep (bs : List Agent) (c : Agent) (m : Message)
    (st : ThreadsState) (bid : String)
    (h : (st.threads.map Prod.fst).Nodup) :
    ((searchStep bs c m st bid).threads.map Prod.fst).Nodup := by
  unfold searchStep
  cases hb : findAgent bs bid with
  | none => exact h
  | some b => exact keysNodup_appendToThread st.threads (threadKey c.id bid) c b _ _ h

theorem searchFold_totalLen (bs : List Agent) (c : Agent) (m : Message) :
    ∀ (bids : List String) (st : ThreadsState),
      (st.threads.map Prod.fst).Nodup →
      totalLen ((bids.foldl (searchStep bs c m) st)).threads =
        totalLen st.threads +
          (bids.filter (fun b => (findAgent bs b).isSome)).length := by
  intro bids
  induction bids with
  | nil =>
    intro st _
    simp
  | cons bid rest ih =>
    intro st hnd
    rw [List.foldl_cons, List.filter_cons]
    cases hb : findAgent bs bid with
    | none =>
      have hstep : searchStep bs c m st bid = st := by
        unfold searchStep
        rw [hb]
      rw [hstep, ih st hnd]
      simp
    | some b =>
      have hstep : (searchStep bs c m st bid).threads =
          appendToThread st.threads (threadKey c.id bid) c b
            (stripBusinessIds m) m.created_at := by
        unfold searchStep
        rw [hb]
      have hnd' : ((searchStep bs c m st bid).threads.map Prod.fst).Nodup :=
        keysNodup_searchStep bs c m st bid hnd
      rw [ih (searchStep bs c m st bid) hnd', hstep,
        totalLen_appendToThread st.threads (threadKey c.id bid) c b _ _ hnd]
      simp only [Option.isSome_some, if_pos, List.length_cons]
      omega

theorem searchFold_lookup_untouched (bs : List Agent) (c : Agent) (m : Message) :
    ∀ (bids : List String) (st : ThreadsState) (k : String),
      (∀ b' ∈ bids, findAgent bs b' = none ∨ ¬ k = threadKey c.id b') →
      lookupThread ((bids.foldl (searchStep bs c m) st)).threads k =
        lookupThread st.threads k := by
  intro bids
  induction bids with
  | nil =>
    intro st k _
    rfl
  | cons bid rest ih =>
    intro st k hk
    rw [List.foldl_cons]
    rw [ih (searchStep bs c m st bid) k
      (fun b' hb' => hk b' (List.mem_cons_of_mem bid hb'))]
    rcases hk bid (List.mem_cons_self bid rest) with hb | hb
    · unfold searchStep
      rw [hb]
    · unfold searchStep
      cases hfb : findAgent bs bid with
      | none => rfl
      | some b =>
        exact lookupThread_appendToThread_ne st.threads (threadKey c.id bid) c b
          (stripBusinessIds m) m.created_at k hb

theorem searchFold_lookup_resolved (bs : List Agent) (c : Agent) (m : Message) :
    ∀ (bids : List String) (st : ThreadsState) (b : String) (bb : Agent),
      bids.Nodup → b ∈ bids → findAgent bs b = some bb →
      ∃ t', lookupThread ((bids.foldl (searchStep bs c m) st)).threads
            (threadKey c.id b) = some t' ∧
        t'.messages = msgsAt st.threads (threadKey c.id b) ++ [stripBusinessIds m] ∧
        t'.lastMessageTime = m.created_at := by
  intro bids
  induction bids with
  | nil =>
    intro st b bb _ hmem
    cases hmem
  | cons bid rest ih =>
    intro st b bb hnd hmem hres
    rw [List.nodup_cons] at hnd
    rw [List.foldl_cons]
    by_cases hbbid : b = bid
    · subst hbbid
      have hstep : (searchStep bs c m st b).threads =
          appendToThread st.threads (threadKey c.id b) c bb
            (stripBusinessIds m) m.created_at := by
        unfold searchStep
        rw [hres]
      have huntouched :
          lookupThread ((rest.foldl (searchStep bs c m) (searchStep bs c m st b))).threads
              (threadKey c.id b) =
            lookupThread (searchStep bs c m st b).threads (threadKey c.id b) := by
        refine searchFold_lookup_untouched bs c m rest (searchStep bs c m st b)
          (threadKey c.id b) ?_
        intro b' hb'
        refine Or.inr ?_
        intro hkey
        exact hnd.1 (threadKey_right_inj c.id b b' hkey ▸ hb')
      rw [huntouched, hstep,
        lookupThread_appendToThread_self st.threads (threadKey c.id b) c bb
          (stripBusinessIds m) m.created_at]
      refine ⟨_, rfl, ?_, rfl⟩
      rcases ho : lookupThread st.threads (threadKey c.id b) with _ | t0
      · rw [msgsAt_eq_of_lookup_none _ _ ho]
        simp [ho]
      · rw [msgsAt_eq_of_lookup_some _ _ _ ho]
        simp [ho]
    · have hmem' : b ∈ rest := by
        rcases List.mem_cons.mp hmem with h | h
        · exact absurd h hbbid
        · exact h
      have hmsgs : msgsAt (searchStep bs c m st bid).threads (threadKey c.id b) =
          msgsAt st.threads (threadKey c.id b) := by
        unfold searchStep
        cases hfb : findAgent bs bid with
        | none => rfl
        | some b2 =>
          unfold msgsAt
          rw [lookupThread_appendToThread_ne st.threads (threadKey c.id bid) c b2
            (stripBusinessIds m) m.created_at (threadKey c.id b)
            (fun hkey => hbbid (threadKey_right_inj c.id b bid hkey))]
      rcases ih (searchStep bs c m st bid) b bb hnd.2 hmem' hres with ⟨t', h1, h2, h3⟩
      exact ⟨t', h1, by rw [h2, hmsgs], h3⟩

theorem processMessage_search_eq (cs bs : List Agent) (st : ThreadsState)
    (m : Message) (c : Agent) (bids : List String)
    (hty : m.type = "search") (hbids : m.business_ids = some bids)
    (hc : findAgent cs m.from_agent = some c) :
    processMessage cs bs st m = bids.foldl (searchStep bs c m) st := by
  unfold processMessage
  rw [hbids, hty, hc]
  simp

/-- C3: a Search message by a resolvable customer whose matched id set
contains `k` resolvable ids produces exactly `k` thread message appends —
one per resolvable matched business, each storing the search message with
the `business_ids` field removed — while unresolvable matched ids are
skipped without affecting the other appends and contribute no thread; the
payments set is untouched. -/
theorem searchMessage_fanout_exact (cs bs : List Agent) (st : ThreadsState)
    (m : Message) (c : Agent) (bids : List String)
    (hty : m.type = "search") (hbids : m.business_ids = some bids)
    (hc : findAgent cs m.from_agent = some c) (hnd : bids.Nodup)
    (hkeys : (st.threads.map Prod.fst).Nodup) :
    totalLen (processMessage cs bs st m).threads =
        totalLen st.threads +
          (bids.filter (fun b => (findAgent bs b).isSome)).length ∧
      (∀ b ∈ bids, ∀ bb, findAgent bs b = some bb →
        ∃ t', lookupThread (processMessage cs bs st m).threads (threadKey c.id b) =
            some t' ∧
          t'.messages = msgsAt st.threads (threadKey c.id b) ++ [stripBusinessIds m]) ∧
      (∀ b ∈ bids, findAgent bs b = none →
        lookupThread (processMessage cs bs st m).threads (threadKey c.id b) =
          lookupThread st.threads (threadKey c.id b)) ∧
      (processMessage cs bs st m).withPayments = st.withPayments := by
  rw [processMessage_search_eq cs bs st m c bids hty hbids hc]
  refine ⟨searchFold_totalLen bs c m bids st hkeys, ?_, ?_,
    searchFold_withPayments bs c m bids st⟩
  · intro b hb bb hres
    rcases searchFold_lookup_resolved bs c m bids st b bb hnd hb hres with
      ⟨t', h1, h2, _⟩
    exact ⟨t', h1, h2⟩
  · intro b hb hres
    refine searchFold_lookup_untouched bs c m bids st (threadKey c.id b) ?_
    intro b' hb'
    by_cases hbb : b' = b
    · subst hbb
      exact Or.inl hres
    · exact Or.inr fun hkey => hbb (threadKey_right_inj c.id b b' hkey).symm

def c3cs : List Agent := [⟨"c"⟩]

def c3bs : List Agent := [⟨"b1"⟩, ⟨"b2"⟩]

def c3m : Message :=
  ⟨7, "c", none, "search", Content.search "q" ["b1", "bx", "b2"] 3, 9,
    some ["b1", "bx", "b2"]⟩

theorem searchMessage_fanout_exact_witness :
    totalLen (processMessage c3cs c3bs ⟨[], []⟩ c3m).threads =
        totalLen (ThreadsState.mk [] []).threads +
          ((["b1", "bx", "b2"]).filter
            (fun b => (findAgent c3bs b).isSome)).length ∧
      (∀ b ∈ ["b1", "bx", "b2"], ∀ bb, findAgent c3bs b = some bb →
        ∃ t', lookupThread (processMessage c3cs c3bs ⟨[], []⟩ c3m).threads
            (threadKey (Agent.mk "c").id b) = some t' ∧
          t'.messages = msgsAt (ThreadsState.mk [] []).threads
              (threadKey (Agent.mk "c").id b) ++ [stripBusinessIds c3m]) ∧
      (∀ b ∈ ["b1", "bx", "b2"], findAgent c3bs b = none →
        lookupThread (processMessage c3cs c3bs ⟨[], []⟩ c3m).threads
            (threadKey (Agent.mk "c").id b) =
          lookupThread (ThreadsState.mk [] []).threads
            (threadKey (Agent.mk "c").id b)) ∧
      (processMessage c3cs c3bs ⟨[], []⟩ c3m).withPayments =
        (ThreadsState.mk [] []).withPayments :=
  searchMessage_fanout_exact c3cs c3bs ⟨[], []⟩ c3m ⟨"c"⟩ ["b1", "bx", "b2"]
    (by decide) (by decide) (by decide) (by decide) (by decide)

theorem processMessage_nonsearch_eq (cs bs : List Agent) (st : ThreadsState)
    (m : Message) (hty : ¬ m.type = "search") :
    processMessage cs bs st m =
      match resolveCustomer cs m, resolveBusiness bs m with
      | some c, some b =>
        ⟨appendToThread st.threads (threadKey c.id b.id) c b m m.created_at,
         if m.type == "payment" && m.from_agent == c.id then
           addFlag st.withPayments (threadKey c.id b.id)
         else st.withPayments⟩
      | some _, none => st
      | none, _ => st := by
  unfold processMessage
  rw [show (m.type == "search") = false from beq_eq_false_iff_ne.mpr hty,
    Bool.false_and]
  rfl

/-- C7: for a non-Search message, a customer candidate is resolved from
`from_agent` or else `to_agent` (and a business candidate symmetrically);
if either resolution fails the message is dropped silently — the whole
state is returned unchanged — and otherwise the message is appended to the
thread keyed by exactly that (customer, business) pair (created with those
participants when absent), leaving every other thread binding unchanged. -/
theorem nonsearch_resolution_or_drop (cs bs : List Agent) (st : ThreadsState)
    (m : Message) (hty : ¬ m.type = "search") :
    ((resolveCustomer cs m = none ∨ resolveBusiness bs m = none) →
        processMessage cs bs st m = st) ∧
      ∀ c b, resolveCustomer cs m = some c → resolveBusiness bs m = some b →
        (∃ t', lookupThread (processMessage cs bs st m).threads
              (threadKey c.id b.id) = some t' ∧
            t'.messages = msgsAt st.threads (threadKey c.id b.id) ++ [m] ∧
            t'.lastMessageTime = m.created_at ∧
            (lookupThread st.threads (threadKey c.id b.id) = none →
              t'.customer = c ∧ t'.business = b)) ∧
          ∀ k, ¬ k = threadKey c.id b.id →
            lookupThread (processMessage cs bs st m).threads k =
              lookupThread st.threads k := by
  rw [processMessage_nonsearch_eq cs bs st m hty]
  constructor
  · intro h
    rcases h with h | h
    · rw [h]
    · rw [h]
      cases resolveCustomer cs m <;> rfl
  · intro c b hcu hbu
    rw [hcu, hbu]
    constructor
    · rw [lookupThread_appendToThread_self st.threads (threadKey c.id b.id) c b m
        m.created_at]
      refine ⟨_, rfl, ?_, rfl, ?_⟩
      · rcases ho : lookupThread st.threads (threadKey c.id b.id) with _ | t0
        · rw [msgsAt_eq_of_lookup_none _ _ ho]
          simp [ho]
        · rw [msgsAt_eq_of_lookup_some _ _ _ ho]
          simp [ho]
      · intro ho
        simp [ho]
    · intro k hk
      exact lookupThread_appendToThread_ne st.threads (threadKey c.id b.id) c b m
        m.created_at k hk

def c7cs : List Agent := [⟨"c"⟩]

def c7bs : List Agent := [⟨"b"⟩]

def c7m : Message := ⟨4, "b", some "c", "text", Content.text "re", 6, none⟩

def c7mdrop : Message := ⟨5, "z", some "w", "text", Content.text "lost", 7, none⟩

theorem nonsearch_resolution_or_drop_witness :
    ((resolveCustomer c7cs c7m = none ∨ resolveBusiness c7bs c7m = none) →
        processMessage c7cs c7bs ⟨[], []⟩ c7m = ⟨[], []⟩) ∧
      ∀ c b, resolveCustomer c7cs c7m = some c →
        resolveBusiness c7bs c7m = some b →
        (∃ t', lookupThread (processMessage c7cs c7bs ⟨[], []⟩ c7m).threads
              (threadKey c.id b.id) = some t' ∧
            t'.messages = msgsAt (ThreadsState.mk [] []).threads
                (threadKey c.id b.id) ++ [c7m] ∧
            t'.lastMessageTime = c7m.created_at ∧
            (lookupThread (ThreadsState.mk [] []).threads
                (threadKey c.id b.id) = none →
              t'.customer = c ∧ t'.business = b)) ∧
          ∀ k, ¬ k = threadKey c.id b.id →
            lookupThread (processMessage c7cs c7bs ⟨[], []⟩ c7m).threads k =
              lookupThread (ThreadsState.mk [] []).threads k :=
  nonsearch_resolution_or_drop c7cs c7bs ⟨[], []⟩ c7m (by decide)

theorem keysNodup_searchFold (bs : List Agent) (c : Agent) (m : Message) :
    ∀ (bids : List String) (st : ThreadsState),
      (st.threads.map Prod.fst).Nodup →
      (((bids.foldl (searchStep bs c m) st)).threads.map Prod.fst).Nodup := by
  intro bids
  induction bids with
  | nil => intro st h; exact h
  | cons bid rest ih =>
    intro st h
    rw [List.foldl_cons]
    exact ih (searchStep bs c m st bid) (keysNodup_searchStep bs c m st bid h)

theorem keysNodup_processMessage (cs bs : List Agent) (st : ThreadsState)
    (m : Message) (h : (st.threads.map Prod.fst).Nodup) :
    ((processMessage cs bs st m).threads.map Prod.fst).Nodup := by
  unfold processMessage
  cases hcond : (m.type == "search" && m.business_ids.isSome) with
  | true =>
    simp only [if_pos rfl]
    cases hc : findAgent cs m.from_agent with
    | none => exact h
    | some c => exact keysNodup_searchFold bs c m (m.business_ids.getD []) st h
  | false =>
    simp only [Bool.false_eq_true, if_false]
    cases hcu : resolveCustomer cs m with
    | none => exact h
    | some c =>
      cases hbu : resolveBusiness bs m with
      | none => exact h
      | some b =>
        exact keysNodup_appendToThread st.threads (threadKey c.id b.id) c b m
          m.created_at h

theorem keysNodup_createMessageThreads (cs bs : List Agent) (msgs : List Message) :
    (((createMessageThreads cs bs msgs).threads).map Prod.fst).Nodup := by
  have haux : ∀ (l : List Message) (st : ThreadsState),
      (st.threads.map Prod.fst).Nodup →
      (((l.foldl (processMessage cs bs) st)).threads.map Prod.fst).Nodup := by
    intro l
    induction l with
    | nil => intro st h; exact h
    | cons m rest ih =>
      intro st h
      rw [List.foldl_cons]
      exact ih (processMessage cs bs st m) (keysNodup_processMessage cs bs st m h)
  exact haux msgs ⟨[], []⟩ (by simp)

theorem resolveCustomer_mem (cs : List Agent) (m : Message) (c : Agent)
    (h : resolveCustomer cs m = some c) : c ∈ cs := by
  unfold resolveCustomer at h
  cases hf : findAgent cs m.from_agent with
  | some c' =>
    rw [hf] at h
    injection h with h
    exact h ▸ (findAgent_some cs m.from_agent c' hf).1
  | none =>
    rw [hf] at h
    cases ht : m.to_agent with
    | none => rw [ht] at h; exact absurd h (by simp)
    | some ta =>
      rw [ht] at h
      exact (findAgent_some cs ta c h).1

/-- The creation-site invariant of the thread map: every binding's key is
the `threadKey` of its own stored participants, and the stored customer was
looked up in the customer directory. -/
def KeyInv (cs : List Agent) (st : ThreadsState) : Prop :=
  ∀ k t, lookupThread st.threads k = some t →
    k = threadKey t.customer.id t.business.id ∧ t.customer ∈ cs

theorem lookupThread_appendToThread_cases (ts : List (String × Thread))
    (k0 : String) (c b : Agent) (x : Message) (time : Nat) (k : String)
    (t' : Thread) (h : lookupThread (appendToThread ts k0 c b x time) k = some t') :
    (¬ k = k0 ∧ lookupThread ts k = some t') ∨
      (k = k0 ∧ ∃ t0, lookupThread ts k0 = some t0 ∧
        t' = { t0 with messages := t0.messages ++ [x], lastMessageTime := time }) ∨
      (k = k0 ∧ lookupThread ts k0 = none ∧ t' = ⟨c, b, [x], time, 0⟩) := by
  by_cases hk : k = k0
  · subst hk
    rw [lookupThread_appendToThread_self ts k c b x time] at h
    rcases ho : lookupThread ts k with _ | t0
    · rw [ho] at h
      injection h with h
      exact Or.inr (Or.inr ⟨rfl, rfl, h.symm⟩)
    · rw [ho] at h
      injection h with h
      exact Or.inr (Or.inl ⟨rfl, t0, rfl, h.symm⟩)
  · rw [lookupThread_appendToThread_ne ts k0 c b x time k hk] at h
    exact Or.inl ⟨hk, h⟩

theorem keyInv_appendToThread (cs : List Agent) (ts : List (String × Thread))
    (k0 : String) (c b : Agent) (x : Message) (time : Nat)
    (hk0 : k0 = threadKey c.id b.id) (hcmem : c ∈ cs)
    (hinv : ∀ k t, lookupThread ts k = some t →
      k = threadKey t.customer.id t.business.id ∧ t.customer ∈ cs) :
    ∀ k t, lookupThread (appendToThread ts k0 c b x time) k = some t →
      k = threadKey t.customer.id t.business.id ∧ t.customer ∈ cs := by
  intro k t h
  rcases lookupThread_appendToThread_cases ts k0 c b x time k t h with
    ⟨_, h⟩ | ⟨hk, t0, ho, ht⟩ | ⟨hk, ho, ht⟩
  · exact hinv k t h
  · rcases hinv k0 t0 ho with ⟨h1, h2⟩
    subst hk
    subst ht
    exact ⟨h1, h2⟩
  · subst hk
    subst ht
    exact ⟨hk0, hcmem⟩

theorem keyInv_searchStep (cs bs : List Agent) (c : Agent) (m : Message)
    (st : ThreadsState) (bid : String) (hcmem : c ∈ cs)
    (hinv : KeyInv cs st) : KeyInv cs (searchStep bs c m st bid) := by
  unfold searchStep
  cases hb : findAgent bs bid with
  | none => exact hinv
  | some b =>
    intro k t h
    refine keyInv_appendToThread cs st.threads (threadKey c.id bid) c b
      (stripBusinessIds m) m.created_at ?_ hcmem hinv k t h
    rw [(findAgent_some bs bid b hb).2]

theorem keyInv_searchFold (cs bs : List Agent) (c : Agent) (m : Message)
    (hcmem : c ∈ cs) :
    ∀ (bids : List String) (st : ThreadsState), KeyInv cs st →
      KeyInv cs (bids.foldl (searchStep bs c m) st) := by
  intro bids
  induction bids with
  | nil => intro st h; exact h
  | cons bid rest ih =>
    intro st h
    rw [List.foldl_cons]
    exact ih (searchStep bs c m st bid) (keyInv_searchStep cs bs c m st bid hcmem h)

theorem keyInv_processMessage (cs bs : List Agent) (st : ThreadsState)
    (m : Message) (hinv : KeyInv cs st) : KeyInv cs (processMessage cs bs st m) := by
  unfold processMessage
  cases hcond : (m.type == "search" && m.business_ids.isSome) with
  | true =>
    simp only [if_pos rfl]
    cases hc : findAgent cs m.from_agent with
    | none => exact hinv
    | some c =>
      exact keyInv_searchFold cs bs c m (findAgent_some cs m.from_agent c hc).1
        (m.business_ids.getD []) st hinv
  | false =>
    simp only [Bool.false_eq_true, if_false]
    cases hcu : resolveCustomer cs m with
    | none => exact hinv
    | some c =>
      cases hbu : resolveBusiness bs m with
      | none => exact hinv
      | some b =>
        intro k t h
        exact keyInv_appendToThread cs st.threads (threadKey c.id b.id) c b m
          m.created_at rfl (resolveCustomer_mem cs m c hcu) hinv k t h

theorem keyInv_createMessageThreads (cs bs : List Agent) (msgs : List Message) :
    KeyInv cs (createMessageThreads cs bs msgs) := by
  have haux : ∀ (l : List Message) (st : ThreadsState), KeyInv cs st →
      KeyInv cs (l.foldl (processMessage cs bs) st) := by
    intro l
    induction l with
    | nil => intro st h; exact h
    | cons m rest ih =>
      intro st h
      rw [List.foldl_cons]
      exact ih (processMessage cs bs st m) (keyInv_processMessage cs bs st m h)
  refine haux msgs ⟨[], []⟩ ?_
  intro k t h
  simp [lookupThread] at h

def c9cs : List Agent := [⟨"a"⟩, ⟨"a-b"⟩]

def c9bs : List Agent := [⟨"b-c"⟩, ⟨"c"⟩]

def c9m1 : Message := ⟨1, "a", some "b-c", "text", Content.text "x", 1, none⟩

def c9m2 : Message := ⟨2, "a-b", some "c", "text", Content.text "y", 2, none⟩

/-- C9 counterexample: thread keys are built by hyphen concatenation, which
is not injective on arbitrary id strings.  With customers `"a"`, `"a-b"` and
businesses `"b-c"`, `"c"`, the two distinct resolved participant pairs
`("a", "b-c")` and `("a-b", "c")` map to the single key `"a-b-c"`: both
messages land in one and the same thread, so distinct pairs share a
thread. -/
theorem threadKey_collision_counterexample :
    resolveCustomer c9cs c9m1 = some ⟨"a"⟩ ∧
      resolveBusiness c9bs c9m1 = some ⟨"b-c"⟩ ∧
      resolveCustomer c9cs c9m2 = some ⟨"a-b"⟩ ∧
      resolveBusiness c9bs c9m2 = some ⟨"c"⟩ ∧
      ((Agent.mk "a", Agent.mk "b-c") ≠ (Agent.mk "a-b", Agent.mk "c")) ∧
      threadKey "a" "b-c" = threadKey "a-b" "c" ∧
      (createMessageThreads c9cs c9bs [c9m1, c9m2]).threads.length = 1 ∧
      msgsAt (createMessageThreads c9cs c9bs [c9m1, c9m2]).threads "a-b-c" =
        [c9m1, c9m2] := by
  decide

/-- C9 amended: provided no customer id contains a hyphen, thread keys are
collision-free: the produced thread map binds each key at most once, every
binding's key is the `threadKey` of its own participants, and the thread
reached under the key of any resolvable pair `(c, b)` carries exactly that
participant pair. -/
theorem threadKeys_unique_hyphen_free (cs bs : List Agent) (msgs : List Message)
    (hc : ∀ a ∈ cs, ('-') ∉ a.id.data) :
    (((createMessageThreads cs bs msgs).threads).map Prod.fst).Nodup ∧
      (∀ k t, lookupThread (createMessageThreads cs bs msgs).threads k = some t →
        k = threadKey t.customer.id t.business.id) ∧
      (∀ k t, lookupThread (createMessageThreads cs bs msgs).threads k = some t →
        ∀ c b : Agent, c ∈ cs → k = threadKey c.id b.id →
          t.customer.id = c.id ∧ t.business.id = b.id) := by
  have hinv := keyInv_createMessageThreads cs bs msgs
  refine ⟨keysNodup_createMessageThreads cs bs msgs, fun k t h => (hinv k t h).1, ?_⟩
  intro k t h c b hcmem hk
  rcases hinv k t h with ⟨h1, h2⟩
  have hkey : threadKey t.customer.id t.business.id = threadKey c.id b.id :=
    h1 ▸ hk
  exact threadKey_inj t.customer.id t.business.id c.id b.id
    (hc t.customer h2) (hc c hcmem) hkey

theorem threadKeys_unique_hyphen_free_witness :
    ((((createMessageThreads c2cs c2bs [c2m1, c2m2]).threads).map Prod.fst).Nodup ∧
      (∀ k t,
        lookupThread (createMessageThreads c2cs c2bs [c2m1, c2m2]).threads k = some t →
        k = threadKey t.customer.id t.business.id) ∧
      (∀ k t,
        lookupThread (createMessageThreads c2cs c2bs [c2m1, c2m2]).threads k = some t →
        ∀ c b : Agent, c ∈ c2cs → k = threadKey c.id b.id →
          t.customer.id = c.id ∧ t.business.id = b.id)) :=
  threadKeys_unique_hyphen_free c2cs c2bs [c2m1, c2m2] (by decide)

theorem addFlag_mem_iff (s : List String) (k0 k : String) :
    k ∈ addFlag s k0 ↔ k ∈ s ∨ k = k0 := by
  unfold addFlag
  cases hc : s.contains k0 with
  | true =>
    rw [if_pos rfl]
    constructor
    · exact Or.inl
    · intro h
      rcases h with h | h
      · exact h
      · subst h
        exact List.mem_of_elem_eq_true hc
  | false =>
    simp only [Bool.false_eq_true, if_false]
    rw [List.mem_append, List.mem_singleton]

/-- The has_payment bookkeeping invariant: a key is in the payments set iff
its thread holds a payment-type message whose sender is the thread's own
customer id. -/
def FlagInv (st : ThreadsState) : Prop :=
  ∀ k, k ∈ st.withPayments ↔
    ∃ t, lookupThread st.threads k = some t ∧
      ∃ x ∈ t.messages, x.type = "payment" ∧ x.from_agent = t.customer.id

theorem flagInv_searchStep (bs : List Agent) (c : Agent) (m : Message)
    (st : ThreadsState) (bid : String) (hmty : m.type = "search")
    (hflag : FlagInv st) : FlagInv (searchStep bs c m st bid) := by
  intro k
  rw [searchStep_withPayments bs c m st bid, hflag k]
  unfold searchStep
  cases hb : findAgent bs bid with
  | none => rfl
  | some b =>
    show (∃ t, lookupThread st.threads k = some t ∧ ∃ x ∈ t.messages, x.type = "payment" ∧ x.from_agent = t.customer.id) ↔ (∃ t, lookupThread (appendToThread st.threads (threadKey c.id bid) c b (stripBusinessIds m) m.created_at) k = some t ∧ ∃ x ∈ t.messages, x.type = "payment" ∧ x.from_agent = t.customer.id)
    constructor
    · rintro ⟨t, ho, x, hx, hpay⟩
      by_cases hk : k = threadKey c.id bid
      · subst hk
        rw [lookupThread_appendToThread_self st.threads (threadKey c.id bid) c b
          (stripBusinessIds m) m.created_at]
        rw [ho]
        exact ⟨_, rfl, x, List.mem_append.mpr (Or.inl hx), hpay⟩
      · rw [lookupThread_appendToThread_ne st.threads (threadKey c.id bid) c b
          (stripBusinessIds m) m.created_at k hk]
        exact ⟨t, ho, x, hx, hpay⟩
    · rintro ⟨t', h', x, hx, hpay⟩
      rcases lookupThread_appendToThread_cases st.threads (threadKey c.id bid) c b
        (stripBusinessIds m) m.created_at k t' h' with
        ⟨_, h⟩ | ⟨hk, t0, ho, ht⟩ | ⟨hk, ho, ht⟩
      · exact ⟨t', h, x, hx, hpay⟩
      · subst hk
        subst ht
        rcases List.mem_append.mp hx with hx | hx
        · exact ⟨t0, ho, x, hx, hpay⟩
        · rw [List.mem_singleton] at hx
          subst hx
          have hpm : m.type = "payment" := hpay.1
          rw [hmty] at hpm
          exact absurd hpm (by decide)
      · subst ht
        rw [List.mem_singleton] at hx
        subst hx
        have hpm : m.type = "payment" := hpay.1
        rw [hmty] at hpm
        exact absurd hpm (by decide)

theorem flagInv_searchFold (bs : List Agent) (c : Agent) (m : Message)
    (hmty : m.type = "search") :
    ∀ (bids : List String) (st : ThreadsState), FlagInv st →
      FlagInv (bids.foldl (searchStep bs c m) st) := by
  intro bids
  induction bids with
  | nil => intro st h; exact h
  | cons bid rest ih =>
    intro st h
    rw [List.foldl_cons]
    exact ih (searchStep bs c m st bid) (flagInv_searchStep bs c m st bid hmty h)

theorem flagInv_appendPayment (cs : List Agent) (st : ThreadsState) (m : Message)
    (c b : Agent) (hc : ∀ a ∈ cs, ('-') ∉ a.id.data) (hkey : KeyInv cs st)
    (hflag : FlagInv st) (hcmem : c ∈ cs) :
    FlagInv
      ⟨appendToThread st.threads (threadKey c.id b.id) c b m m.created_at,
        if m.type == "payment" && m.from_agent == c.id then
          addFlag st.withPayments (threadKey c.id b.id)
        else st.withPayments⟩ := by
  have hid : ∀ t0, lookupThread st.threads (threadKey c.id b.id) = some t0 →
      t0.customer.id = c.id := by
    intro t0 ho
    rcases hkey (threadKey c.id b.id) t0 ho with ⟨h1, h2⟩
    exact (threadKey_inj t0.customer.id t0.business.id c.id b.id (hc _ h2)
      (hc c hcmem) h1.symm).1
  intro k
  show k ∈ (if m.type == "payment" && m.from_agent == c.id then addFlag st.withPayments (threadKey c.id b.id) else st.withPayments) ↔ (∃ t, lookupThread (appendToThread st.threads (threadKey c.id b.id) c b m m.created_at) k = some t ∧ ∃ x ∈ t.messages, x.type = "payment" ∧ x.from_agent = t.customer.id)
  cases hpayc : (m.type == "payment" && m.from_agent == c.id) with
  | true =>
    rw [if_pos rfl, addFlag_mem_iff]
    rw [Bool.and_eq_true, beq_iff_eq, beq_iff_eq] at hpayc
    constructor
    · intro hk
      rcases hk with hk | hk
      · rcases (hflag k).mp hk with ⟨t, ho, x, hx, hp⟩
        by_cases hkk : k = threadKey c.id b.id
        · subst hkk
          rw [lookupThread_appendToThread_self st.threads (threadKey c.id b.id) c b
            m m.created_at, ho]
          exact ⟨_, rfl, x, List.mem_append.mpr (Or.inl hx), hp⟩
        · rw [lookupThread_appendToThread_ne st.threads (threadKey c.id b.id) c b m
            m.created_at k hkk]
          exact ⟨t, ho, x, hx, hp⟩
      · subst hk
        rw [lookupThread_appendToThread_self st.threads (threadKey c.id b.id) c b m
          m.created_at]
        rcases ho : lookupThread st.threads (threadKey c.id b.id) with _ | t0
        · refine ⟨_, rfl, m, ?_, hpayc.1, ?_⟩
          · simp
          · show m.from_agent = c.id
            exact hpayc.2
        · refine ⟨_, rfl, m, ?_, hpayc.1, ?_⟩
          · simp
          · show m.from_agent = t0.customer.id
            exact hpayc.2.trans (hid t0 ho).symm
    · rintro ⟨t', h', x, hx, hp⟩
      rcases lookupThread_appendToThread_cases st.threads (threadKey c.id b.id) c b
        m m.created_at k t' h' with ⟨hkk, h⟩ | ⟨hkk, _⟩ | ⟨hkk, _⟩
      · exact Or.inl ((hflag k).mpr ⟨t', h, x, hx, hp⟩)
      · exact Or.inr hkk
      · exact Or.inr hkk
  | false =>
    simp only [Bool.false_eq_true, if_false]
    rw [hflag k]
    constructor
    · rintro ⟨t, ho, x, hx, hp⟩
      by_cases hkk : k = threadKey c.id b.id
      · subst hkk
        rw [lookupThread_appendToThread_self st.threads (threadKey c.id b.id) c b m
          m.created_at, ho]
        exact ⟨_, rfl, x, List.mem_append.mpr (Or.inl hx), hp⟩
      · rw [lookupThread_appendToThread_ne st.threads (threadKey c.id b.id) c b m
          m.created_at k hkk]
        exact ⟨t, ho, x, hx, hp⟩
    · rintro ⟨t', h', x, hx, hp⟩
      rcases lookupThread_appendToThread_cases st.threads (threadKey c.id b.id) c b
        m m.created_at k t' h' with ⟨_, h⟩ | ⟨hkk, t0, ho, ht⟩ | ⟨hkk, ho, ht⟩
      · exact ⟨t', h, x, hx, hp⟩
      · subst hkk
        subst ht
        rcases List.mem_append.mp hx with hx | hx
        · exact ⟨t0, ho, x, hx, hp⟩
        · rw [List.mem_singleton] at hx
          exfalso
          have hcond2 : (m.type == "payment" && m.from_agent == c.id) = true := by
            rw [Bool.and_eq_true, beq_iff_eq, beq_iff_eq]
            constructor
            · rw [← hx]
              exact hp.1
            · rw [← hx]
              exact hp.2.trans (hid t0 ho)
          rw [hpayc] at hcond2
          exact Bool.false_ne_true hcond2
      · subst hkk
        subst ht
        rw [List.mem_singleton] at hx
        exfalso
        have hcond2 : (m.type == "payment" && m.from_agent == c.id) = true := by
          rw [Bool.and_eq_true, beq_iff_eq, beq_iff_eq]
          constructor
          · rw [← hx]
            exact hp.1
          · rw [← hx]
            exact hp.2
        rw [hpayc] at hcond2
        exact Bool.false_ne_true hcond2

theorem flagInv_processMessage (cs bs : List Agent) (st : ThreadsState)
    (m : Message) (hc : ∀ a ∈ cs, ('-') ∉ a.id.data) (hkey : KeyInv cs st)
    (hflag : FlagInv st) : FlagInv (processMessage cs bs st m) := by
  unfold processMessage
  cases hcond : (m.type == "search" && m.business_ids.isSome) with
  | true =>
    simp only [if_pos rfl]
    cases hcu : findAgent cs m.from_agent with
    | none => exact hflag
    | some c =>
      have hmty : m.type = "search" := by
        rw [Bool.and_eq_true, beq_iff_eq] at hcond
        exact hcond.1
      exact flagInv_searchFold bs c m hmty (m.business_ids.getD []) st hflag
  | false =>
    simp only [Bool.false_eq_true, if_false]
    cases hcu : resolveCustomer cs m with
    | none => exact hflag
    | some c =>
      cases hbu : resolveBusiness bs m with
      | none => exact hflag
      | some b =>
        exact flagInv_appendPayment cs st m c b hc hkey hflag
          (resolveCustomer_mem cs m c hcu)

theorem flagInv_createMessageThreads (cs bs : List Agent) (msgs : List Message)
    (hc : ∀ a ∈ cs, ('-') ∉ a.id.data) :
    FlagInv (createMessageThreads cs bs msgs) := by
  have haux : ∀ (l : List Message) (st : ThreadsState), KeyInv cs st → FlagInv st →
      FlagInv (l.foldl (processMessage cs bs) st) := by
    intro l
    induction l with
    | nil => intro st _ h; exact h
    | cons m rest ih =>
      intro st hkey h
      rw [List.foldl_cons]
      exact ih (processMessage cs bs st m) (keyInv_processMessage cs bs st m hkey)
        (flagInv_processMessage cs bs st m hc hkey h)
  refine haux msgs ⟨[], []⟩ ?_ ?_
  · intro k t h
    simp [lookupThread] at h
  · intro k
    constructor
    · intro h
      simp at h
    · rintro ⟨t, h, _⟩
      simp [lookupThread] at h

def c4m2 : Message := ⟨3, "a-b", some "c", "payment", Content.dict "payment" "p", 3, none⟩

/-- C4 counterexample: with customers `"a"`, `"a-b"` and businesses
`"b-c"`, `"c"`, a text message for the pair `("a", "b-c")` creates the
thread keyed `"a-b-c"` with customer `"a"`; a payment from `"a-b"` to `"c"`
then lands in that same (colliding) thread and flags it — yet no message of
the flagged thread is a payment whose `from_agent` equals the thread's
customer id `"a"`.  The claimed iff fails on this input. -/
theorem has_payment_flag_counterexample :
    "a-b-c" ∈ (createMessageThreads c9cs c9bs [c9m1, c4m2]).withPayments ∧
      ((lookupThread (createMessageThreads c9cs c9bs [c9m1, c4m2]).threads
          "a-b-c").map
        (fun t => t.messages.any
          (fun x => x.type == "payment" && x.from_agent == t.customer.id))) =
        some false := by
  decide

/-- C4 amended: provided no customer id contains a hyphen (so thread keys
cannot collide), a thread key is in the returned payments set iff the
thread holds at least one payment-type message whose `from_agent` equals
the thread's own customer id. -/
theorem has_payment_iff (cs bs : List Agent) (msgs : List Message)
    (hc : ∀ a ∈ cs, ('-') ∉ a.id.data) :
    ∀ k, k ∈ (createMessageThreads cs bs msgs).withPayments ↔
      ∃ t, lookupThread (createMessageThreads cs bs msgs).threads k = some t ∧
        ∃ x ∈ t.messages, x.type = "payment" ∧ x.from_agent = t.customer.id :=
  flagInv_createMessageThreads cs bs msgs hc

def c4wcs : List Agent := [⟨"c"⟩]

def c4wbs : List Agent := [⟨"b"⟩]

def c4wm1 : Message := ⟨1, "c", some "b", "text", Content.text "hi", 1, none⟩

def c4wm2 : Message := ⟨2, "c", some "b", "payment", Content.dict "payment" "p", 2, none⟩

theorem has_payment_iff_witness :
    "c-b" ∈ (createMessageThreads c4wcs c4wbs [c4wm1, c4wm2]).withPayments ↔
      ∃ t, lookupThread (createMessageThreads c4wcs c4wbs [c4wm1, c4wm2]).threads
          "c-b" = some t ∧
        ∃ x ∈ t.messages, x.type = "payment" ∧ x.from_agent = t.customer.id :=
  has_payment_iff c4wcs c4wbs [c4wm1, c4wm2] (by decide) "c-b"

/-- Modelled from the spec: an action row as seen by the payment attributor
of `MarketplaceAnalytics` (`experiments/run_analytics.py`, not under
`src/`): action kind discriminant, issuing and addressed agents, and the
`(created_at, id)` position in the log. -/
structure PAction where
  id : Nat
  kind : String
  from_agent : String
  to_agent : Option String
  created_at : Nat
deriving DecidableEq, Repr

/-- Strictly earlier position in the log order `(created_at, id)`. -/
def precedes (p q : PAction) : Prop :=
  p.created_at < q.created_at ∨ (p.created_at = q.created_at ∧ p.id < q.id)

instance : DecidableRel precedes := fun p q => by
  unfold precedes; infer_instance

/-- Modelled from the spec: a Proposal qualifies for a Payment when it is
addressed to the paying customer from the business being paid and strictly
precedes the payment in `(created_at, id)` order. -/
def qualifies (pm p : PAction) : Bool :=
  p.kind == "proposal" && p.to_agent == some pm.from_agent &&
    some p.from_agent == pm.to_agent && decide (precedes p pm)

/-- One step of the backward scan, keeping the latest qualifying proposal
seen so far. -/
def attrStep (pm : PAction) (best : Option PAction) (q : PAction) :
    Option PAction :=
  if qualifies pm q then
    match best with
    | none => some q
    | some b => if decide (precedes b q) then some q else some b
  else best

/-- Modelled from the spec: locate the nearest preceding Proposal addressed
to the paying customer from the same business (nearest by `created_at`,
ties broken by id); `none` when no qualifying proposal exists
(UnattributedPayment). -/
def attributeProposal (actions : List PAction) (pm : PAction) : Option PAction :=
  actions.foldl (attrStep pm) none

/-- Modelled from the spec: a Payment action issued by one of the known
customers. -/
def isCustomerPayment (customers : List String) (a : PAction) : Bool :=
  a.kind == "payment" && customers.contains a.from_agent

/-- Modelled from the spec: `payments_received` for a business — the count
of attributed customer payments whose recorded business id equals the
business. -/
def paymentsReceived (actions : List PAction) (customers : List String)
    (b : String) : Nat :=
  ((actions.filter (isCustomerPayment customers)).filter
    (fun pm => (attributeProposal actions pm).map PAction.from_agent == some b)).length

theorem attrStep_cases (pm : PAction) (best : Option PAction) (q : PAction) :
    (qualifies pm q = false ∧ attrStep pm best q = best) ∨
      (qualifies pm q = true ∧ best = none ∧ attrStep pm best q = some q) ∨
      (∃ b, qualifies pm q = true ∧ best = some b ∧ precedes b q ∧
        attrStep pm best q = some q) ∨
      (∃ b, qualifies pm q = true ∧ best = some b ∧ ¬ precedes b q ∧
        attrStep pm best q = some b) := by
  cases hq : qualifies pm q with
  | false => exact Or.inl ⟨rfl, by simp [attrStep, hq]⟩
  | true =>
    cases best with
    | none => exact Or.inr (Or.inl ⟨rfl, rfl, by simp [attrStep, hq]⟩)
    | some b =>
      by_cases hba : precedes b q
      · exact Or.inr (Or.inr (Or.inl ⟨b, rfl, rfl, hba, by simp [attrStep, hq, hba]⟩))
      · exact Or.inr (Or.inr (Or.inr ⟨b, rfl, rfl, hba, by simp [attrStep, hq, hba]⟩))

theorem attr_fold_mem (pm : PAction) :
    ∀ (l : List PAction) (acc : Option PAction) (p : PAction),
      l.foldl (attrStep pm) acc = some p →
      (p ∈ l ∧ qualifies pm p = true) ∨ acc = some p := by
  intro l
  induction l with
  | nil =>
    intro acc p h
    exact Or.inr h
  | cons q rest ih =>
    intro acc p h
    rw [List.foldl_cons] at h
    rcases ih (attrStep pm acc q) p h with h' | h'
    · exact Or.inl ⟨List.mem_cons_of_mem q h'.1, h'.2⟩
    · rcases attrStep_cases pm acc q with ⟨_, he⟩ | ⟨hq, _, he⟩ |
        ⟨b, hq, _, _, he⟩ | ⟨b, _, hacc, _, he⟩
      · exact Or.inr (he ▸ h')
      · rw [he] at h'
        injection h' with h'
        exact Or.inl ⟨h' ▸ List.mem_cons_self q rest, h' ▸ hq⟩
      · rw [he] at h'
        injection h' with h'
        exact Or.inl ⟨h' ▸ List.mem_cons_self q rest, h' ▸ hq⟩
      · rw [he] at h'
        injection h' with h'
        exact Or.inr (hacc.trans (by rw [h']))

theorem attr_fold_dom (pm : PAction) :
    ∀ (l : List PAction) (acc : Option PAction) (p : PAction),
      l.foldl (attrStep pm) acc = some p →
      (∀ b, acc = some b → ¬ precedes p b) ∧
        (∀ q ∈ l, qualifies pm q = true → ¬ precedes p q) := by
  intro l
  induction l with
  | nil =>
    intro acc p h
    constructor
    · intro b hb
      rw [hb] at h
      injection h with h
      subst h
      unfold precedes
      omega
    · intro q hq
      cases hq
  | cons q0 rest ih =>
    intro acc p h
    rw [List.foldl_cons] at h
    rcases ih (attrStep pm acc q0) p h with ⟨ihacc, ihrest⟩
    constructor
    · intro b hb
      rcases attrStep_cases pm acc q0 with ⟨_, he⟩ | ⟨_, hnone, he⟩ |
        ⟨b0, _, hacc, hlt, he⟩ | ⟨b0, _, hacc, _, he⟩
      · exact ihacc b (he.trans hb)
      · rw [hnone] at hb
        cases hb
      · rw [hacc] at hb
        injection hb with hb
        subst hb
        have hpq0 : ¬ precedes p q0 := ihacc q0 he
        unfold precedes at *
        omega
      · rw [hacc] at hb
        injection hb with hb
        subst hb
        exact ihacc _ he
    · intro q hqmem hqq
      rcases List.mem_cons.mp hqmem with hq | hq
      · subst hq
        rcases attrStep_cases pm acc q with ⟨hqf, _⟩ | ⟨_, _, he⟩ |
          ⟨b0, _, _, _, he⟩ | ⟨b0, _, _, hge, he⟩
        · rw [hqq] at hqf
          exact absurd hqf (by decide)
        · exact ihacc q he
        · exact ihacc q he
        · have hpb0 : ¬ precedes p b0 := ihacc b0 he
          unfold precedes at *
          omega
      · exact ihrest q hq hqq

theorem attrStep_isSome (pm : PAction) (best : Option PAction) (q : PAction)
    (h : best.isSome = true) : (attrStep pm best q).isSome = true := by
  rcases attrStep_cases pm best q with ⟨_, he⟩ | ⟨_, _, he⟩ |
    ⟨b, _, _, _, he⟩ | ⟨b, _, _, _, he⟩ <;> rw [he]
  · exact h
  · rfl
  · rfl
  · rfl

theorem attr_fold_isSome (pm : PAction) :
    ∀ (l : List PAction) (acc : Option PAction), acc.isSome = true →
      ((l.foldl (attrStep pm) acc)).isSome = true := by
  intro l
  induction l with
  | nil => intro acc h; exact h
  | cons q rest ih =>
    intro acc h
    rw [List.foldl_cons]
    exact ih (attrStep pm acc q) (attrStep_isSome pm acc q h)

theorem attr_exists_some (pm : PAction) :
    ∀ (l : List PAction) (acc : Option PAction) (q : PAction), q ∈ l →
      qualifies pm q = true → ((l.foldl (attrStep pm) acc)).isSome = true := by
  intro l
  induction l with
  | nil =>
    intro acc q hq
    cases hq
  | cons q0 rest ih =>
    intro acc q hqmem hqq
    rw [List.foldl_cons]
    rcases List.mem_cons.mp hqmem with hq | hq
    · subst hq
      refine attr_fold_isSome pm rest (attrStep pm acc q) ?_
      rcases attrStep_cases pm acc q with ⟨hqf, _⟩ | ⟨_, _, he⟩ |
        ⟨b, _, _, _, he⟩ | ⟨b, _, _, _, he⟩
      · rw [hqq] at hqf
        exact absurd hqf (by decide)
      · rw [he]
        rfl
      · rw [he]
        rfl
      · rw [he]
        rfl
    · exact ih (attrStep pm acc q0) q hq hqq

/-- C5: the attributor associates a customer payment with the nearest
preceding qualifying Proposal — the returned proposal is a qualifying
element of the action list and no qualifying proposal lies strictly later
(by `created_at`, ties broken by id); whenever a qualifying proposal
exists, the payment is attributed. -/
theorem payment_attribution_nearest (actions : List PAction) (pm : PAction) :
    (∀ p, attributeProposal actions pm = some p →
        p ∈ actions ∧ qualifies pm p = true ∧
          ∀ q ∈ actions, qualifies pm q = true → ¬ precedes p q) ∧
      ∀ q ∈ actions, qualifies pm q = true →
        (attributeProposal actions pm).isSome = true := by
  constructor
  · intro p h
    rcases attr_fold_mem pm actions none p h with ⟨h1, h2⟩ | h'
    · exact ⟨h1, h2, (attr_fold_dom pm actions none p h).2⟩
    · cases h'
  · intro q hq hqq
    exact attr_exists_some pm actions none q hq hqq

def c5p1 : PAction := ⟨1, "proposal", "B1", some "C1", 10⟩

def c5p2 : PAction := ⟨2, "proposal", "B1", some "C1", 20⟩

def c5pay : PAction := ⟨3, "payment", "C1", some "B1", 25⟩

def c5acts : List PAction := [c5p1, c5p2, c5pay]

theorem payment_attribution_nearest_witness :
    (c5p2 ∈ c5acts ∧ qualifies c5pay c5p2 = true ∧
        ∀ q ∈ c5acts, qualifies c5pay q = true → ¬ precedes c5p2 q) ∧
      attributeProposal c5acts c5pay = some c5p2 ∧
      precedes c5p1 c5p2 ∧
      paymentsReceived c5acts ["C1"] "B1" = 1 :=
  ⟨(payment_attribution_nearest c5acts c5pay).1 c5p2 (by decide),
    by decide, by decide, by decide⟩

/-- A thread as held at runtime: the `messages` list aliases dicts in the
message heap by reference (modelled as indices into a store). -/
structure ThreadR where
  customer : Agent
  business : Agent
  messages : List Nat
  lastMessageTime : Nat
  utility : Int
deriving DecidableEq, Repr

/-- Reference-semantics state of `_create_message_threads`: the heap of
message dicts (the input dicts form its prefix; `message.copy()` allocates
at the end), the thread dict holding references, and the payments set. -/
structure StoreState where
  store : List Message
  threads : List (String × ThreadR)
  withPayments : List String
deriving DecidableEq, Repr

def containsKeyR (ts : List (String × ThreadR)) (k : String) : Bool :=
  ts.any (fun p => p.1 == k)

def updateAtR (ts : List (String × ThreadR)) (k : String) (f : ThreadR → ThreadR) :
    List (String × ThreadR) :=
  ts.map (fun p => if p.1 == k then (p.1, f p.2) else p)

/-- Get-or-create plus append, on the reference representation. -/
def appendToThreadR (ts : List (String × ThreadR)) (k : String) (c b : Agent)
    (addr : Nat) (time : Nat) : List (String × ThreadR) :=
  let ts1 := if containsKeyR ts k then ts else ts ++ [(k, ⟨c, b, [], time, 0⟩)]
  updateAtR ts1 k (fun t => { t with messages := t.messages ++ [addr], lastMessageTime := time })

/-- The fan-out iteration under reference semantics:
`thread_message = message.copy()` allocates a fresh dict at the end of the
heap, `pop("business_ids")` mutates only that fresh dict, and the thread
stores the fresh reference. -/
def searchStepR (bs : List Agent) (c : Agent) (m : Message) (st : StoreState)
    (bid : String) : StoreState :=
  match findAgent bs bid with
  | none => st
  | some b =>
    ⟨st.store ++ [stripBusinessIds m],
      appendToThreadR st.threads (threadKey c.id bid) c b st.store.length m.created_at,
      st.withPayments⟩

/-- One loop iteration of `_create_message_threads` under reference
semantics: the current message dict is read from the heap; the non-search
branch appends the *same* reference (aliasing the input dict, no copy). -/
def processAddr (cs bs : List Agent) (st : StoreState) (addr : Nat) : StoreState :=
  match st.store.get? addr with
  | none => st
  | some m =>
    if m.type == "search" && m.business_ids.isSome then
      match findAgent cs m.from_agent with
      | none => st
      | some c => (m.business_ids.getD []).foldl (searchStepR bs c m) st
    else
      match resolveCustomer cs m, resolveBusiness bs m with
      | some c, some b =>
        ⟨st.store,
          appendToThreadR st.threads (threadKey c.id b.id) c b addr m.created_at,
          if m.type == "payment" && m.from_agent == c.id then
            addFlag st.withPayments (threadKey c.id b.id)
          else st.withPayments⟩
      | some _, none => st
      | none, _ => st

/-- `_create_message_threads` under reference semantics, starting from the
heap of input message dicts. -/
def assembleStore (cs bs : List Agent) (store0 : List Message) (addrs : List Nat) :
    StoreState :=
  addrs.foldl (processAddr cs bs) ⟨store0, [], []⟩

def defaultMessage : Message := ⟨0, "", none, "", Content.text "", 0, none⟩

/-- Read a runtime thread back through the heap. -/
def derefThread (store : List Message) (tr : ThreadR) : Thread :=
  ⟨tr.customer, tr.business, tr.messages.map (fun a => store.getD a defaultMessage),
    tr.lastMessageTime, tr.utility⟩

/-- Read the whole thread dict back through the heap. -/
def derefThreadList (store : List Message) (ts : List (String × ThreadR)) :
    List (String × Thread) :=
  ts.map (fun p => (p.1, derefThread store p.2))

theorem getD_append_left (s e : List Message) (a : Nat) (d : Message)
    (h : a < s.length) : (s ++ e).getD a d = s.getD a d := by
  induction s generalizing a with
  | nil => cases h
  | cons x rest ih =>
    cases a with
    | zero => rfl
    | succ a =>
      rw [List.length_cons] at h
      exact ih a (Nat.lt_of_succ_lt_succ h)

theorem getD_append_last (s : List Message) (x : Message) (d : Message) :
    (s ++ [x]).getD s.length d = x := by
  induction s with
  | nil => rfl
  | cons y rest ih => exact ih

theorem get?_eq_getD_of_lt (s : List Message) (a : Nat) (d : Message)
    (h : a < s.length) : s.get? a = some (s.getD a d) := by
  induction s generalizing a with
  | nil => cases h
  | cons x rest ih =>
    cases a with
    | zero => rfl
    | succ a =>
      rw [List.length_cons] at h
      exact ih a (Nat.lt_of_succ_lt_succ h)

theorem get?_append_left_store (s e : List Message) (a : Nat)
    (h : a < s.length) : (s ++ e).get? a = s.get? a := by
  induction s generalizing a with
  | nil => cases h
  | cons x rest ih =>
    cases a with
    | zero => rfl
    | succ a =>
      rw [List.length_cons] at h
      exact ih a (Nat.lt_of_succ_lt_succ h)

theorem derefThread_extend (store ex : List Message) (tr : ThreadR)
    (h : ∀ a ∈ tr.messages, a < store.length) :
    derefThread (store ++ ex) tr = derefThread store tr := by
  unfold derefThread
  congr 1
  refine List.map_congr_left ?_
  intro a ha
  exact getD_append_left store ex a defaultMessage (h a ha)

theorem derefThreadList_extend (store ex : List Message)
    (ts : List (String × ThreadR))
    (h : ∀ p ∈ ts, ∀ a ∈ p.2.messages, a < store.length) :
    derefThreadList (store ++ ex) ts = derefThreadList store ts := by
  unfold derefThreadList
  refine List.map_congr_left ?_
  intro p hp
  rw [derefThread_extend store ex p.2 (h p hp)]

theorem containsKey_derefThreadList (store : List Message)
    (ts : List (String × ThreadR)) (k : String) :
    containsKey (derefThreadList store ts) k = containsKeyR ts k := by
  unfold containsKey containsKeyR derefThreadList
  induction ts with
  | nil => rfl
  | cons p rest ih =>
    rw [List.map_cons, List.any_cons, List.any_cons, ih]

theorem derefThreadList_updateAtR (store : List Message)
    (ts : List (String × ThreadR)) (k : String) (fR : ThreadR → ThreadR)
    (fV : Thread → Thread)
    (hcomm : ∀ tr, derefThread store (fR tr) = fV (derefThread store tr)) :
    derefThreadList store (updateAtR ts k fR) =
      updateAt (derefThreadList store ts) k fV := by
  induction ts with
  | nil => rfl
  | cons p rest ih =>
    unfold updateAtR updateAt derefThreadList at *
    rw [List.map_cons, List.map_cons, List.map_cons, List.map_cons, ih]
    congr 1
    cases hk : (p.1 == k) with
    | true => simp [hk, hcomm p.2]
    | false => simp [hk]

theorem derefThreadList_append_single (store : List Message)
    (ts : List (String × ThreadR)) (k : String) (tr : ThreadR) :
    derefThreadList store (ts ++ [(k, tr)]) =
      derefThreadList store ts ++ [(k, derefThread store tr)] := by
  unfold derefThreadList
  rw [List.map_append]
  rfl

theorem derefThreadList_appendToThreadR (store : List Message)
    (ts : List (String × ThreadR)) (k : String) (c b : Agent) (addr : Nat)
    (time : Nat) :
    derefThreadList store (appendToThreadR ts k c b addr time) =
      appendToThread (derefThreadList store ts) k c b
        (store.getD addr defaultMessage) time := by
  have hcomm : ∀ tr : ThreadR,
      derefThread store { tr with messages := tr.messages ++ [addr], lastMessageTime := time } =
        (fun t : Thread => { t with messages := t.messages ++ [store.getD addr defaultMessage], lastMessageTime := time }) (derefThread store tr) := by
    intro tr
    unfold derefThread
    simp
  unfold appendToThreadR appendToThread
  rw [containsKey_derefThreadList store ts k]
  cases hc : containsKeyR ts k with
  | true =>
    rw [if_pos rfl, if_pos rfl]
    exact derefThreadList_updateAtR store ts k _ _ hcomm
  | false =>
    simp only [Bool.false_eq_true, if_false]
    have h1 := derefThreadList_updateAtR store
      (ts ++ [(k, (⟨c, b, [], time, 0⟩ : ThreadR))]) k
      (fun t : ThreadR => { t with messages := t.messages ++ [addr], lastMessageTime := time })
      (fun t : Thread => { t with messages := t.messages ++ [store.getD addr defaultMessage], lastMessageTime := time })
      hcomm
    rw [h1, derefThreadList_append_single]
    rfl

/-- Correspondence between a reference-semantics run and the value-level
fold: the heap still starts with the untouched input dicts, all stored
references are valid, and reading the threads back through the heap gives
exactly the value-level state. -/
def StoreRel (store0 : List Message) (st : StoreState) (stv : ThreadsState) : Prop :=
  (∃ ex, st.store = store0 ++ ex) ∧
    (∀ p ∈ st.threads, ∀ a ∈ p.2.messages, a < st.store.length) ∧
    derefThreadList st.store st.threads = stv.threads ∧
    st.withPayments = stv.withPayments

theorem appendToThreadR_bound (ts : List (String × ThreadR)) (k : String)
    (c b : Agent) (addr : Nat) (time : Nat) (P : Nat → Prop)
    (hP : ∀ p ∈ ts, ∀ a ∈ p.2.messages, P a) (haddr : P addr) :
    ∀ p ∈ appendToThreadR ts k c b addr time, ∀ a ∈ p.2.messages, P a := by
  intro p hp a ha
  unfold appendToThreadR updateAtR at hp
  rcases List.mem_map.mp hp with ⟨q, hq, hgq⟩
  have hq1 : q ∈ ts ∨ q = (k, (⟨c, b, [], time, 0⟩ : ThreadR)) := by
    split at hq
    · exact Or.inl hq
    · rcases List.mem_append.mp hq with hq | hq
      · exact Or.inl hq
      · rw [List.mem_singleton] at hq
        exact Or.inr hq
  split at hgq
  · subst hgq
    rcases List.mem_append.mp ha with ha | ha
    · rcases hq1 with hq1 | hq1
      · exact hP q hq1 a ha
      · rw [hq1] at ha
        cases ha
    · rw [List.mem_singleton] at ha
      subst ha
      exact haddr
  · subst hgq
    rcases hq1 with hq1 | hq1
    · exact hP q hq1 a ha
    · rw [hq1] at ha
      cases ha

theorem storeRel_searchStepR (bs : List Agent) (c : Agent) (m : Message)
    (store0 : List Message) (bid : String) (st : StoreState) (stv : ThreadsState)
    (hrel : StoreRel store0 st stv) :
    StoreRel store0 (searchStepR bs c m st bid) (searchStep bs c m stv bid) := by
  obtain ⟨⟨ex, hex⟩, hbound, hderef, hwp⟩ := hrel
  unfold searchStepR searchStep
  cases hb : findAgent bs bid with
  | none => exact ⟨⟨ex, hex⟩, hbound, hderef, hwp⟩
  | some b =>
    refine ⟨⟨ex ++ [stripBusinessIds m], by rw [hex, List.append_assoc]⟩, ?_, ?_, hwp⟩
    · refine appendToThreadR_bound st.threads (threadKey c.id bid) c b
        st.store.length m.created_at _ ?_ ?_
      · intro p hp a ha
        have := hbound p hp a ha
        rw [List.length_append, List.length_singleton]
        omega
      · rw [List.length_append, List.length_singleton]
        omega
    · rw [derefThreadList_appendToThreadR, getD_append_last,
        derefThreadList_extend st.store [stripBusinessIds m] st.threads hbound,
        hderef]

theorem storeRel_searchFoldR (bs : List Agent) (c : Agent) (m : Message)
    (store0 : List Message) :
    ∀ (bids : List String) (st : StoreState) (stv : ThreadsState),
      StoreRel store0 st stv →
      StoreRel store0 (bids.foldl (searchStepR bs c m) st)
        (bids.foldl (searchStep bs c m) stv) := by
  intro bids
  induction bids with
  | nil => intro st stv h; exact h
  | cons bid rest ih =>
    intro st stv h
    rw [List.foldl_cons, List.foldl_cons]
    exact ih (searchStepR bs c m st bid) (searchStep bs c m stv bid)
      (storeRel_searchStepR bs c m store0 bid st stv h)

theorem processAddr_eq_of_get (cs bs : List Agent) (st : StoreState)
    (addr : Nat) (m : Message) (hm : st.store.get? addr = some m) :
    processAddr cs bs st addr =
      if m.type == "search" && m.business_ids.isSome then
        match findAgent cs m.from_agent with
        | none => st
        | some c => (m.business_ids.getD []).foldl (searchStepR bs c m) st
      else
        match resolveCustomer cs m, resolveBusiness bs m with
        | some c, some b =>
          ⟨st.store,
            appendToThreadR st.threads (threadKey c.id b.id) c b addr m.created_at,
            if m.type == "payment" && m.from_agent == c.id then
              addFlag st.withPayments (threadKey c.id b.id)
            else st.withPayments⟩
        | some _, none => st
        | none, _ => st := by
  unfold processAddr
  rw [hm]

theorem storeRel_processAddr (cs bs : List Agent) (store0 : List Message)
    (addr : Nat) (haddr : addr < store0.length) (st : StoreState)
    (stv : ThreadsState) (hrel : StoreRel store0 st stv) :
    StoreRel store0 (processAddr cs bs st addr)
      (processMessage cs bs stv (store0.getD addr defaultMessage)) := by
  obtain ⟨⟨ex, hex⟩, hbound, hderef, hwp⟩ := hrel
  have hm : st.store.get? addr = some (store0.getD addr defaultMessage) := by
    rw [hex, get?_append_left_store store0 ex addr haddr,
      get?_eq_getD_of_lt store0 addr defaultMessage haddr]
  rw [processAddr_eq_of_get cs bs st addr (store0.getD addr defaultMessage) hm]
  unfold processMessage
  cases hcond : ((store0.getD addr defaultMessage).type == "search" &&
      (store0.getD addr defaultMessage).business_ids.isSome) with
  | true =>
    simp only [if_pos rfl]
    cases hc : findAgent cs (store0.getD addr defaultMessage).from_agent with
    | none => exact ⟨⟨ex, hex⟩, hbound, hderef, hwp⟩
    | some c =>
      exact storeRel_searchFoldR bs c (store0.getD addr defaultMessage) store0
        ((store0.getD addr defaultMessage).business_ids.getD []) st stv
        ⟨⟨ex, hex⟩, hbound, hderef, hwp⟩
  | false =>
    simp only [Bool.false_eq_true, if_false]
    cases hcu : resolveCustomer cs (store0.getD addr defaultMessage) with
    | none => exact ⟨⟨ex, hex⟩, hbound, hderef, hwp⟩
    | some c =>
      cases hbu : resolveBusiness bs (store0.getD addr defaultMessage) with
      | none => exact ⟨⟨ex, hex⟩, hbound, hderef, hwp⟩
      | some b =>
        refine ⟨⟨ex, hex⟩, ?_, ?_, ?_⟩
        · refine appendToThreadR_bound st.threads (threadKey c.id b.id) c b addr
            ((store0.getD addr defaultMessage).created_at) _ hbound ?_
          rw [hex, List.length_append]
          omega
        · rw [derefThreadList_appendToThreadR]
          have hsame : st.store.getD addr defaultMessage =
              store0.getD addr defaultMessage := by
            rw [hex, getD_append_left store0 ex addr defaultMessage haddr]
          rw [hsame, hderef]
        · rw [hwp]

theorem storeRel_fold (cs bs : List Agent) (store0 : List Message) :
    ∀ (addrs : List Nat) (st : StoreState) (stv : ThreadsState),
      (∀ a ∈ addrs, a < store0.length) → StoreRel store0 st stv →
      StoreRel store0 (addrs.foldl (processAddr cs bs) st)
        ((addrs.map (fun a => store0.getD a defaultMessage)).foldl
          (processMessage cs bs) stv) := by
  intro addrs
  induction addrs with
  | nil => intro st stv _ h; exact h
  | cons addr rest ih =>
    intro st stv hlt h
    rw [List.foldl_cons, List.map_cons, List.foldl_cons]
    exact ih (processAddr cs bs st addr)
      (processMessage cs bs stv (store0.getD addr defaultMessage))
      (fun a ha => hlt a (List.mem_cons_of_mem addr ha))
      (storeRel_processAddr cs bs store0 addr
        (hlt addr (List.mem_cons_self addr rest)) st stv h)

/-- C8: thread assembly is pure and does not mutate its inputs.  Under
reference semantics (message dicts in a heap, threads holding references,
`copy`/`pop` allocating and mutating only fresh cells) the run leaves the
input dicts bitwise intact — the heap still begins with exactly the input
prefix — and reading the resulting threads and payments set back through
the heap agrees field-for-field with an independent pure recomputation of
`_create_message_threads` from the same snapshot. -/
theorem assembleStore_no_mutation_and_pure (cs bs : List Agent)
    (store0 : List Message) (addrs : List Nat)
    (h : ∀ a ∈ addrs, a < store0.length) :
    (assembleStore cs bs store0 addrs).store.take store0.length = store0 ∧
      (∃ ex, (assembleStore cs bs store0 addrs).store = store0 ++ ex) ∧
      derefThreadList (assembleStore cs bs store0 addrs).store
          (assembleStore cs bs store0 addrs).threads =
        (createMessageThreads cs bs
          (addrs.map (fun a => store0.getD a defaultMessage))).threads ∧
      (assembleStore cs bs store0 addrs).withPayments =
        (createMessageThreads cs bs
          (addrs.map (fun a => store0.getD a defaultMessage))).withPayments := by
  have hrel := storeRel_fold cs bs store0 addrs ⟨store0, [], []⟩ ⟨[], []⟩ h
    ⟨⟨[], by simp⟩, fun p hp => absurd hp (List.not_mem_nil p), rfl, rfl⟩
  obtain ⟨⟨ex, hex⟩, _, hderef, hwp⟩ := hrel
  refine ⟨?_, ⟨ex, hex⟩, hderef, hwp⟩
  rw [show (assembleStore cs bs store0 addrs).store = store0 ++ ex from hex]
  exact List.take_left store0 ex

def c8cs : List Agent := [⟨"c"⟩]

def c8bs : List Agent := [⟨"b"⟩]

def c8store : List Message :=
  [⟨1, "c", none, "search", Content.search "q" ["b"] 1, 1, some ["b"]⟩,
    ⟨2, "c", some "b", "payment", Content.dict "payment" "x", 2, none⟩]

theorem assembleStore_no_mutation_and_pure_witness :
    (assembleStore c8cs c8bs c8store [0, 1]).store.take c8store.length = c8store ∧
      (∃ ex, (assembleStore c8cs c8bs c8store [0, 1]).store = c8store ++ ex) ∧
      derefThreadList (assembleStore c8cs c8bs c8store [0, 1]).store
          (assembleStore c8cs c8bs c8store [0, 1]).threads =
        (createMessageThreads c8cs c8bs
          (([0, 1] : List Nat).map (fun a => c8store.getD a defaultMessage))).threads ∧
      (assembleStore c8cs c8bs c8store [0, 1]).withPayments =
        (createMessageThreads c8cs c8bs
          (([0, 1] : List Nat).map (fun a => c8store.getD a defaultMessage))).withPayments :=
  assembleStore_no_mutation_and_pure c8cs c8bs c8store [0, 1] (by decide)
